import Mathlib

/-!
# Verification of the m17n drawing engine (draw.c)

A shallow embedding of the text-shaping / layout core of the m17n library
(`draw.c`, plus the spec-described combining-code macros of
`internal-gui.h`, which is not among the provided sources).

Conventions:
 * C `int` values become `Int`; C division and modulus on possibly negative
   operands become `Int.tdiv` / `Int.tmod` (truncation toward zero, as in C99).
 * Character codes and buffer indices are `Nat`.
 * A glyph string's buffer is modelled as the list of its payload glyphs;
   the two sentinel `GLYPH_ANCHOR` glyphs that flank the buffer in C are
   left implicit (every loop of draw.c walks strictly between them).
 * External capabilities (character-property tables, the line-break callback)
   are passed as function parameters.
-/

/-- Glyph types, from enum `glyph_type` (`GLYPH_CHAR`, `GLYPH_SPACE`,
`GLYPH_PAD`, `GLYPH_BOX`, `GLYPH_ANCHOR`); the anchor sentinels themselves are
implicit in the list model, but box/pad glyphs do occur in buffers. -/
inductive GlyphType where
  | char
  | space
  | pad
  | box
  | anchor
deriving DecidableEq, Repr

/-- The slice of a realized face (`MRealizedFace` / `MRealizedFont`) that the
layout code reads through a glyph: `space_width`, `ascent`, `descent` of the
face and the font size `rfont->font.property[MFONT_SIZE]`. -/
structure Face where
  space_width : Int
  ascent : Int
  descent : Int
  font_size : Int
deriving DecidableEq, Repr

/-- One glyph of a glyph string (struct `MGlyph`), restricted to the fields
the verified code reads or writes. -/
structure Glyph where
  type : GlyphType
  c : Nat
  code : Nat
  pos : Nat
  to_ : Nat
  rface : Face
  combining_code : Nat
  bidi_level : Nat
  width : Int
  lbearing : Int
  rbearing : Int
  ascent : Int
  descent : Int
  xoff : Int
  yoff : Int
  left_padding : Bool
  right_padding : Bool
deriving DecidableEq, Repr

/-- The `MDrawControl` options read by the verified code. The `line_break`
member is the optional custom break callback
`(*line_break) (mt, pos, from, to, line, y)`; the trailing `line`/`y`
arguments are always passed as `0` by `truncate_gstring`, so the model
drops them. -/
structure Control where
  enable_bidi : Bool
  orientation_reversed : Bool
  two_dimensional : Bool
  max_line_width : Int
  tab_width : Nat
  min_line_ascent : Int
  min_line_descent : Int
  max_line_ascent : Int
  max_line_descent : Int
  cursor_width : Int
  cursor_bidi : Bool
  fixed_width : Bool
  align_head : Bool
  ignore_formatting_char : Bool
  line_break : Option (List Nat → Nat → Nat → Nat → Nat)

/-- The slice of `MGlyphString` needed by `truncate_gstring`: the backing
text (list of character codes), the covered range `from`/`to`, the laid-out
`width`, the `width_limit`, the control snapshot and the glyph buffer. -/
structure GlyphString where
  mt : List Nat
  from_ : Nat
  to_ : Nat
  width : Int
  width_limit : Int
  control : Control
  glyphs : List Glyph

/-! ## Combining codec

Modelled from the spec: the packed 6-field combining code and its accessor
macros live in `internal-gui.h`, which is not among the provided sources.
Per spec §3, the code packs `(base_y, base_x, add_y, add_x, off_y, off_x)`:
the first four are 2-bit alignment enums, the last two 8-bit offsets biased
by 128, and a sentinel bit (bit 24 here) distinguishes "by-class" codes
carrying a raw Unicode combining class from "explicit" packed codes. -/

/-- Modelled from the spec: `MAKE_COMBINING_CODE` packs the six fields
(2-bit `base_y`, `base_x`, `add_y`, `add_x`; 8-bit `off_y`, `off_x`). -/
def MAKE_COMBINING_CODE (base_y base_x add_y add_x off_y off_x : Nat) : Nat :=
  off_y * 2 ^ 16 + off_x * 2 ^ 8 + base_x * 2 ^ 6 + base_y * 2 ^ 4 +
    add_x * 2 ^ 2 + add_y

/-- Modelled from the spec: `MAKE_COMBINING_CODE_BY_CLASS` tags a raw
combining class with the by-class sentinel bit. -/
def MAKE_COMBINING_CODE_BY_CLASS (cls : Nat) : Nat :=
  2 ^ 24 + cls

/-- Modelled from the spec: `COMBINING_BY_CLASS_P` tests the sentinel bit. -/
def COMBINING_BY_CLASS_P (code : Nat) : Bool :=
  2 ^ 24 ≤ code

/-- Modelled from the spec: `COMBINING_CODE_CLASS` extracts the class bits
(the value below the sentinel bit). -/
def COMBINING_CODE_CLASS (code : Nat) : Nat :=
  code % 2 ^ 24

/-- Modelled from the spec: `COMBINING_CODE_OFF_Y` accessor. -/
def COMBINING_CODE_OFF_Y (code : Nat) : Nat :=
  code / 2 ^ 16 % 2 ^ 8

/-- Modelled from the spec: `COMBINING_CODE_OFF_X` accessor. -/
def COMBINING_CODE_OFF_X (code : Nat) : Nat :=
  code / 2 ^ 8 % 2 ^ 8

/-- Modelled from the spec: `COMBINING_CODE_BASE_X` accessor. -/
def COMBINING_CODE_BASE_X (code : Nat) : Nat :=
  code / 2 ^ 6 % 4

/-- Modelled from the spec: `COMBINING_CODE_BASE_Y` accessor. -/
def COMBINING_CODE_BASE_Y (code : Nat) : Nat :=
  code / 2 ^ 4 % 4

/-- Modelled from the spec: `COMBINING_CODE_ADD_X` accessor. -/
def COMBINING_CODE_ADD_X (code : Nat) : Nat :=
  code / 2 ^ 2 % 4

/-- Modelled from the spec: `COMBINING_CODE_ADD_Y` accessor. -/
def COMBINING_CODE_ADD_Y (code : Nat) : Nat :=
  code % 4

/-- `combining_code_from_class` (draw.c): maps a Unicode canonical combining
class to the packed alignment code, branch for branch as in the source. -/
def combining_code_from_class (cls : Nat) : Nat :=
  if cls < 200 then MAKE_COMBINING_CODE 3 1 3 1 128 128
  else if cls = 200 then MAKE_COMBINING_CODE 2 0 0 1 128 128
  else if cls = 202 then MAKE_COMBINING_CODE 2 1 0 1 128 128
  else if cls = 204 then MAKE_COMBINING_CODE 2 2 0 1 128 128
  else if cls = 208 then MAKE_COMBINING_CODE 3 0 3 2 128 128
  else if cls = 210 then MAKE_COMBINING_CODE 3 2 3 0 128 128
  else if cls = 212 then MAKE_COMBINING_CODE 0 0 2 1 128 128
  else if cls = 214 then MAKE_COMBINING_CODE 0 1 2 1 128 128
  else if cls = 216 then MAKE_COMBINING_CODE 0 2 2 1 128 128
  else if cls = 218 then MAKE_COMBINING_CODE 2 0 0 1 122 128
  else if cls = 220 then MAKE_COMBINING_CODE 2 1 0 1 122 128
  else if cls = 222 then MAKE_COMBINING_CODE 2 2 0 1 122 128
  else if cls = 224 then MAKE_COMBINING_CODE 3 0 3 2 128 122
  else if cls = 226 then MAKE_COMBINING_CODE 3 2 3 0 128 133
  else if cls = 228 then MAKE_COMBINING_CODE 0 0 2 1 133 128
  else if cls = 230 then MAKE_COMBINING_CODE 0 1 2 1 133 128
  else if cls = 232 then MAKE_COMBINING_CODE 0 2 2 1 133 128
  else if cls = 233 then MAKE_COMBINING_CODE 2 2 0 2 122 128
  else if cls = 234 then MAKE_COMBINING_CODE 0 2 2 2 133 128
  else if cls = 240 then MAKE_COMBINING_CODE 2 1 0 1 122 128
  else MAKE_COMBINING_CODE 3 1 3 1 128 128

/-! Named alignment codes.  The spec's §4.1 table speaks of named placements
("below left attached", …); the source comments beside each branch of
`combining_code_from_class` tie each name to its packed tuple, which we take
as the definition of the names. -/

/-- Alignment code "below left attached" (source comment at class 200). -/
def codeBelowLeftAttached : Nat := MAKE_COMBINING_CODE 2 0 0 1 128 128

/-- Alignment code "below attached" (source comment at class 202). -/
def codeBelowCenterAttached : Nat := MAKE_COMBINING_CODE 2 1 0 1 128 128

/-- Alignment code "below right attached" (source comment at class 204). -/
def codeBelowRightAttached : Nat := MAKE_COMBINING_CODE 2 2 0 1 128 128

/-- Alignment code "left attached" (source comment at class 208). -/
def codeLeftAttached : Nat := MAKE_COMBINING_CODE 3 0 3 2 128 128

/-- Alignment code "right attached" (source comment at class 210). -/
def codeRightAttached : Nat := MAKE_COMBINING_CODE 3 2 3 0 128 128

/-- Alignment code "above left attached" (source comment at class 212). -/
def codeAboveLeftAttached : Nat := MAKE_COMBINING_CODE 0 0 2 1 128 128

/-- Alignment code "above attached" (source comment at class 214). -/
def codeAboveCenterAttached : Nat := MAKE_COMBINING_CODE 0 1 2 1 128 128

/-- Alignment code "above right attached" (source comment at class 216). -/
def codeAboveRightAttached : Nat := MAKE_COMBINING_CODE 0 2 2 1 128 128

/-- Alignment code "below left" with a small gap (class 218). -/
def codeBelowLeftGap : Nat := MAKE_COMBINING_CODE 2 0 0 1 122 128

/-- Alignment code "below" with a small gap (class 220). -/
def codeBelowCenterGap : Nat := MAKE_COMBINING_CODE 2 1 0 1 122 128

/-- Alignment code "below right" with a small gap (class 222). -/
def codeBelowRightGap : Nat := MAKE_COMBINING_CODE 2 2 0 1 122 128

/-- Alignment code "left" with a small gap (class 224). -/
def codeLeftGap : Nat := MAKE_COMBINING_CODE 3 0 3 2 128 122

/-- Alignment code "right" with a small gap (class 226). -/
def codeRightGap : Nat := MAKE_COMBINING_CODE 3 2 3 0 128 133

/-- Alignment code "above left" with a small gap (class 228). -/
def codeAboveLeftGap : Nat := MAKE_COMBINING_CODE 0 0 2 1 133 128

/-- Alignment code "above" with a small gap (class 230). -/
def codeAboveCenterGap : Nat := MAKE_COMBINING_CODE 0 1 2 1 133 128

/-- Alignment code "above right" with a small gap (class 232). -/
def codeAboveRightGap : Nat := MAKE_COMBINING_CODE 0 2 2 1 133 128

/-- Alignment code "double below" (class 233). -/
def codeDoubleBelow : Nat := MAKE_COMBINING_CODE 2 2 0 2 122 128

/-- Alignment code "double above" (class 234). -/
def codeDoubleAbove : Nat := MAKE_COMBINING_CODE 0 2 2 2 133 128

/-- Alignment code "iota subscript" (class 240). -/
def codeIotaSubscript : Nat := MAKE_COMBINING_CODE 2 1 0 1 122 128

/-- Alignment code "generic above center" (the fall-through of the table). -/
def codeGenericAboveCenter : Nat := MAKE_COMBINING_CODE 3 1 3 1 128 128

/-- The class table exactly as the spec's §4.1 bullet list states it
(one bullet per line, the final bullet being the catch-all). -/
def spec_combining_code_table (cls : Nat) : Nat :=
  if cls = 200 then codeBelowLeftAttached
  else if cls = 202 then codeBelowCenterAttached
  else if cls = 204 then codeBelowRightAttached
  else if cls = 208 then codeLeftAttached
  else if cls = 210 then codeRightAttached
  else if cls = 212 then codeAboveLeftAttached
  else if cls = 214 then codeAboveCenterAttached
  else if cls = 216 then codeAboveRightAttached
  else if cls = 218 then codeBelowLeftGap
  else if cls = 220 then codeBelowCenterGap
  else if cls = 222 then codeBelowRightGap
  else if cls = 224 then codeLeftGap
  else if cls = 226 then codeRightGap
  else if cls = 228 then codeAboveLeftGap
  else if cls = 230 then codeAboveCenterGap
  else if cls = 232 then codeAboveRightGap
  else if cls = 233 then codeDoubleBelow
  else if cls = 234 then codeDoubleAbove
  else if cls = 240 then codeIotaSubscript
  else codeGenericAboveCenter

set_option maxRecDepth 8192 in
/-- C4. `combining_code_from_class` realizes the spec's §4.1 class table on
every non-zero Unicode combining class (classes are 8-bit values): classes
200/202/204 map to below left/center/right attached, 208/210 to side
attached, 212/214/216 to above attached, 218/220/222 to below with a small
gap, 224/226 to side with a small gap, 228/230/232 to above with a small
gap, 233/234 to the doubled codes, 240 to iota subscript, and every other
non-zero class to the generic above-center code. -/
theorem combining_code_from_class_matches_spec_table :
    ∀ cls : Nat, cls < 256 → cls ≠ 0 →
      combining_code_from_class cls = spec_combining_code_table cls := by
  decide

/-- Closed witness for C4 at class 230 (the most common class, COMBINING
ACUTE ACCENT etc.): the hypotheses are discharged at a concrete input. -/
theorem combining_code_from_class_matches_spec_table_witness :
    combining_code_from_class 230 = spec_combining_code_table 230 :=
  combining_code_from_class_matches_spec_table 230 (by decide) (by decide)

/-! ## Mark reordering (`reorder_combining_chars`, draw.c)

The C function bubble-sorts the glyphs of a cluster range in place: it
repeats left-to-right passes, swapping an adjacent pair `(g[-1], g)` whenever
`COMBINING_CODE_CLASS (g->combining_code) > 0` and the class of `g[-1]`
is strictly greater, until a pass performs no swap.  The model runs the same
pass to a fixpoint; since each swap removes exactly one adjacent inversion,
`glyph_inversions l + 1` passes always reach the fixpoint (proved below via
`bubble_pass_inversions_lt` and `bubble_fuel_chain`). -/

/-- The combining class the reorderer compares: `COMBINING_CODE_CLASS` of the
glyph's combining code, as a C `int`. -/
def glyph_class (g : Glyph) : Int :=
  (COMBINING_CODE_CLASS g.combining_code : Int)

/-- One step chain of a left-to-right pass: `a` is the glyph currently held
as `g[-1]`; on a swap the larger glyph `a` keeps scanning rightward, exactly
as the C in-place pass does. -/
def bubble_pass_go (a : Glyph) : List Glyph → List Glyph × Bool
  | [] => ([a], false)
  | b :: rest =>
      if 0 < glyph_class b ∧ glyph_class b < glyph_class a then
        (b :: (bubble_pass_go a rest).1, true)
      else
        ((a :: (bubble_pass_go b rest).1), (bubble_pass_go b rest).2)

/-- One full pass of the `while (reordered)` loop body; the boolean is the
C `reordered` flag. -/
def bubble_pass : List Glyph → List Glyph × Bool
  | [] => ([], false)
  | a :: rest => bubble_pass_go a rest

/-- Number of adjacent-or-distant inversions the pass can still fix: pairs
`(x, y)`, `x` before `y`, with `0 < class y < class x`. -/
def glyph_inversions : List Glyph → Nat
  | [] => 0
  | a :: rest =>
      rest.countP (fun b => decide (0 < glyph_class b ∧ glyph_class b < glyph_class a))
        + glyph_inversions rest

/-- Iterated passes with explicit fuel. -/
def bubble_fuel : Nat → List Glyph → List Glyph
  | 0, l => l
  | n + 1, l =>
      if (bubble_pass l).2 = true then bubble_fuel n (bubble_pass l).1
      else (bubble_pass l).1

/-- `reorder_combining_chars` (draw.c): bubble passes repeated until no swap
occurs; `glyph_inversions l + 1` rounds of fuel provably suffice. -/
def reorder_combining_chars (l : List Glyph) : List Glyph :=
  bubble_fuel (glyph_inversions l + 1) l

/-- The fixpoint condition of the pass: no adjacent pair may still satisfy
the swap test of the C loop. -/
def noSwapRel (x y : Glyph) : Prop :=
  ¬ (0 < glyph_class y ∧ glyph_class y < glyph_class x)

theorem bubble_pass_go_perm (l : List Glyph) :
    ∀ a, (bubble_pass_go a l).1.Perm (a :: l) := by
  induction l with
  | nil => intro a; simp [bubble_pass_go]
  | cons b rest ih =>
    intro a
    by_cases h : 0 < glyph_class b ∧ glyph_class b < glyph_class a
    · simp only [bubble_pass_go, if_pos h]
      exact ((ih a).cons b).trans (List.Perm.swap a b rest)
    · simp only [bubble_pass_go, if_neg h]
      exact (ih b).cons a

theorem bubble_pass_perm (l : List Glyph) : (bubble_pass l).1.Perm l := by
  cases l with
  | nil => simp [bubble_pass]
  | cons a rest => exact bubble_pass_go_perm rest a

theorem bubble_pass_go_filter (l : List Glyph) (c : Int) :
    ∀ a, (bubble_pass_go a l).1.filter (fun g => decide (glyph_class g = c))
      = (a :: l).filter (fun g => decide (glyph_class g = c)) := by
  induction l with
  | nil => intro a; simp [bubble_pass_go]
  | cons b rest ih =>
    intro a
    by_cases h : 0 < glyph_class b ∧ glyph_class b < glyph_class a
    · have hne : glyph_class a ≠ glyph_class b := by
        intro hab; exact absurd h.2 (by simp [hab])
      simp only [bubble_pass_go, if_pos h]
      by_cases hb : glyph_class b = c
      · have ha : ¬ glyph_class a = c := fun hc => hne (hc.trans hb.symm)
        simp [List.filter, hb, ha, ih a]
      · by_cases ha : glyph_class a = c
        · simp [List.filter, hb, ha, ih a]
        · simp [List.filter, hb, ha, ih a]
    · simp only [bubble_pass_go, if_neg h]
      by_cases ha : glyph_class a = c
      · simp [List.filter, ha, ih b]
      · simp [List.filter, ha, ih b]

theorem bubble_pass_filter (l : List Glyph) (c : Int) :
    (bubble_pass l).1.filter (fun g => decide (glyph_class g = c))
      = l.filter (fun g => decide (glyph_class g = c)) := by
  cases l with
  | nil => simp [bubble_pass]
  | cons a rest => exact bubble_pass_go_filter rest c a

theorem bubble_pass_go_false (l : List Glyph) :
    ∀ a, (bubble_pass_go a l).2 = false →
      (bubble_pass_go a l).1 = a :: l ∧ List.Chain' noSwapRel (a :: l) := by
  induction l with
  | nil => intro a _; exact ⟨rfl, List.chain'_singleton a⟩
  | cons b rest ih =>
    intro a hfl
    by_cases h : 0 < glyph_class b ∧ glyph_class b < glyph_class a
    · simp [bubble_pass_go, if_pos h] at hfl
    · simp only [bubble_pass_go, if_neg h] at hfl ⊢
      obtain ⟨h1, h2⟩ := ih b hfl
      exact ⟨by rw [h1], List.chain'_cons.mpr ⟨h, h2⟩⟩

theorem bubble_pass_false (l : List Glyph) (h : (bubble_pass l).2 = false) :
    (bubble_pass l).1 = l ∧ List.Chain' noSwapRel l := by
  cases l with
  | nil => exact ⟨rfl, List.chain'_nil⟩
  | cons a rest => exact bubble_pass_go_false rest a h

theorem bubble_pass_go_inversions_lt (l : List Glyph) :
    ∀ a, (bubble_pass_go a l).2 = true →
      glyph_inversions (bubble_pass_go a l).1 < glyph_inversions (a :: l) := by
  induction l with
  | nil => intro a h; simp [bubble_pass_go] at h
  | cons b rest ih =>
    intro a hflag
    by_cases h : 0 < glyph_class b ∧ glyph_class b < glyph_class a
    · simp only [bubble_pass_go, if_pos h]
      have hXperm : (bubble_pass_go a rest).1.Perm (a :: rest) := bubble_pass_go_perm rest a
      have hcntX :
          (bubble_pass_go a rest).1.countP
              (fun x => decide (0 < glyph_class x ∧ glyph_class x < glyph_class b))
            = (a :: rest).countP
              (fun x => decide (0 < glyph_class x ∧ glyph_class x < glyph_class b)) :=
        hXperm.countP_eq _
      have hnota : ¬ (0 < glyph_class a ∧ glyph_class a < glyph_class b) := by
        rintro ⟨_, hab⟩; exact absurd (hab.trans h.2) (lt_irrefl _)
      have hbcnt : (b :: rest).countP
          (fun x => decide (0 < glyph_class x ∧ glyph_class x < glyph_class a))
          = rest.countP
              (fun x => decide (0 < glyph_class x ∧ glyph_class x < glyph_class a)) + 1 := by
        simp [List.countP_cons, h]
      by_cases hfl : (bubble_pass_go a rest).2 = true
      · have hlt := ih a hfl
        simp only [glyph_inversions, hcntX, List.countP_cons, hbcnt] at *
        simp [hnota] at *
        omega
      · have heq := (bubble_pass_go_false rest a ((Bool.not_eq_true _).mp hfl)).1
        simp only [glyph_inversions, hcntX, heq, List.countP_cons, hbcnt]
        simp [hnota]
        omega
    · simp only [bubble_pass_go, if_neg h] at hflag ⊢
      have hlt := ih b hflag
      have hcntY :
          (bubble_pass_go b rest).1.countP
              (fun x => decide (0 < glyph_class x ∧ glyph_class x < glyph_class a))
            = (b :: rest).countP
              (fun x => decide (0 < glyph_class x ∧ glyph_class x < glyph_class a)) :=
        (bubble_pass_go_perm rest b).countP_eq _
      have e1 : glyph_inversions (a :: (bubble_pass_go b rest).1)
          = (bubble_pass_go b rest).1.countP
              (fun x => decide (0 < glyph_class x ∧ glyph_class x < glyph_class a))
            + glyph_inversions (bubble_pass_go b rest).1 := rfl
      have e2 : glyph_inversions (a :: b :: rest)
          = (b :: rest).countP
              (fun x => decide (0 < glyph_class x ∧ glyph_class x < glyph_class a))
            + glyph_inversions (b :: rest) := rfl
      rw [e1, e2, hcntY]
      exact Nat.add_lt_add_left hlt _

theorem bubble_pass_inversions_lt (l : List Glyph) (h : (bubble_pass l).2 = true) :
    glyph_inversions (bubble_pass l).1 < glyph_inversions l := by
  cases l with
  | nil => simp [bubble_pass] at h
  | cons a rest => exact bubble_pass_go_inversions_lt rest a h

/-- A zero glyph, used as the out-of-range default of `List.getD`. -/
def nullGlyph : Glyph :=
  { type := GlyphType.anchor, c := 0, code := 0, pos := 0, to_ := 0,
    rface := ⟨0, 0, 0, 0⟩, combining_code := 0, bidi_level := 0,
    width := 0, lbearing := 0, rbearing := 0, ascent := 0, descent := 0,
    xoff := 0, yoff := 0, left_padding := false, right_padding := false }

theorem bubble_pass_go_fixed (l : List Glyph) :
    ∀ a i, i < (a :: l).length → glyph_class ((a :: l).getD i nullGlyph) ≤ 0 →
      (bubble_pass_go a l).1.getD i nullGlyph = (a :: l).getD i nullGlyph := by
  induction l with
  | nil => intro a i _ _; rfl
  | cons b rest ih =>
    intro a i hi hcls
    by_cases h : 0 < glyph_class b ∧ glyph_class b < glyph_class a
    · simp only [bubble_pass_go, if_pos h]
      match i with
      | 0 =>
        have ha : glyph_class a ≤ 0 := by simpa using hcls
        exact absurd (h.1.trans h.2) (not_lt.mpr ha)
      | 1 =>
        exact absurd h.1 (by simpa using hcls)
      | (k + 2) =>
        have hk : k + 1 < (a :: rest).length := by
          simpa using Nat.lt_of_succ_lt_succ hi
        have hc2 : glyph_class ((a :: rest).getD (k + 1) nullGlyph) ≤ 0 := by
          simpa using hcls
        have := ih a (k + 1) hk hc2
        simpa using this
    · simp only [bubble_pass_go, if_neg h]
      match i with
      | 0 => rfl
      | (k + 1) =>
        have hk : k < (b :: rest).length := by simpa using Nat.lt_of_succ_lt_succ hi
        have hc2 : glyph_class ((b :: rest).getD k nullGlyph) ≤ 0 := by simpa using hcls
        have := ih b k hk hc2
        simpa using this

theorem bubble_pass_fixed (l : List Glyph) (i : Nat) (hi : i < l.length)
    (hcls : glyph_class (l.getD i nullGlyph) ≤ 0) :
    (bubble_pass l).1.getD i nullGlyph = l.getD i nullGlyph := by
  cases l with
  | nil => rfl
  | cons a rest => exact bubble_pass_go_fixed rest a i hi hcls

theorem bubble_fuel_perm (n : Nat) : ∀ l : List Glyph, (bubble_fuel n l).Perm l := by
  induction n with
  | zero => intro l; exact List.Perm.refl l
  | succ m ih =>
    intro l
    by_cases h : (bubble_pass l).2 = true
    · simpa [bubble_fuel, h] using (ih (bubble_pass l).1).trans (bubble_pass_perm l)
    · simpa [bubble_fuel, h] using bubble_pass_perm l

theorem bubble_fuel_filter (n : Nat) (c : Int) :
    ∀ l : List Glyph,
      (bubble_fuel n l).filter (fun g => decide (glyph_class g = c))
        = l.filter (fun g => decide (glyph_class g = c)) := by
  induction n with
  | zero => intro l; rfl
  | succ m ih =>
    intro l
    by_cases h : (bubble_pass l).2 = true
    · simp only [bubble_fuel, if_pos h]
      exact (ih (bubble_pass l).1).trans (bubble_pass_filter l c)
    · simp only [bubble_fuel, if_neg h]
      exact bubble_pass_filter l c

theorem bubble_fuel_fixed (n : Nat) :
    ∀ (l : List Glyph) (i : Nat), i < l.length →
      glyph_class (l.getD i nullGlyph) ≤ 0 →
      (bubble_fuel n l).getD i nullGlyph = l.getD i nullGlyph := by
  induction n with
  | zero => intro l i _ _; rfl
  | succ m ih =>
    intro l i hi hcls
    by_cases h : (bubble_pass l).2 = true
    · simp only [bubble_fuel, if_pos h]
      have hstep := bubble_pass_fixed l i hi hcls
      have hlen : i < (bubble_pass l).1.length := by
        rwa [(bubble_pass_perm l).length_eq]
      have := ih (bubble_pass l).1 i hlen (by rwa [hstep])
      rw [this, hstep]
    · simp only [bubble_fuel, if_neg h]
      exact bubble_pass_fixed l i hi hcls

theorem bubble_fuel_chain (n : Nat) :
    ∀ l : List Glyph, glyph_inversions l < n →
      List.Chain' noSwapRel (bubble_fuel n l) := by
  induction n with
  | zero => intro l h; exact absurd h (Nat.not_lt_zero _)
  | succ m ih =>
    intro l hn
    by_cases h : (bubble_pass l).2 = true
    · simp only [bubble_fuel, if_pos h]
      exact ih _ (Nat.lt_of_lt_of_le (bubble_pass_inversions_lt l h)
        (Nat.lt_succ_iff.mp hn))
    · simp only [bubble_fuel, if_neg h]
      obtain ⟨h1, h2⟩ := bubble_pass_false l ((Bool.not_eq_true _).mp h)
      rwa [h1]

theorem chain_noSwap_sorted :
    ∀ l : List Glyph, (∀ g ∈ l, 0 < glyph_class g) →
      List.Chain' noSwapRel l →
      List.Chain' (fun x y => glyph_class x ≤ glyph_class y) l := by
  intro l
  induction l with
  | nil => intro _ _; exact List.chain'_nil
  | cons a t ih =>
    intro hpos hch
    cases t with
    | nil => exact List.chain'_singleton a
    | cons b t2 =>
      obtain ⟨hab, hrest⟩ := List.chain'_cons.mp hch
      refine List.chain'_cons.mpr ⟨?_, ih (fun g hg => hpos g (List.mem_cons_of_mem a hg)) hrest⟩
      have hb : 0 < glyph_class b := hpos b (by simp)
      by_contra hgt
      exact hab ⟨hb, lt_of_not_le hgt⟩

/-- C8 (amended per the counterexample below): `reorder_combining_chars`
(a) returns a permutation of its input (the same multiset);
(b) is stable: the subsequence of glyphs of any fixed combining class is
unchanged;
(c) never moves a glyph whose combining class is zero (or non-positive);
(d) reaches the fixpoint of the bubble pass: no glyph of positive class is
left directly preceded by a glyph of strictly greater class — hence, when
every glyph of the range has positive class, the range ends up
non-decreasingly sorted by class. -/
theorem reorder_combining_chars_spec (l : List Glyph) :
    (reorder_combining_chars l).Perm l
    ∧ (∀ c : Int,
        (reorder_combining_chars l).filter (fun g => decide (glyph_class g = c))
          = l.filter (fun g => decide (glyph_class g = c)))
    ∧ (∀ i : Nat, i < l.length → glyph_class (l.getD i nullGlyph) ≤ 0 →
        (reorder_combining_chars l).getD i nullGlyph = l.getD i nullGlyph)
    ∧ List.Chain' noSwapRel (reorder_combining_chars l)
    ∧ ((∀ g ∈ l, 0 < glyph_class g) →
        List.Sorted (fun x y => glyph_class x ≤ glyph_class y)
          (reorder_combining_chars l)) := by
  refine ⟨bubble_fuel_perm _ l, fun c => bubble_fuel_filter _ c l,
    fun i hi hc => bubble_fuel_fixed _ l i hi hc,
    bubble_fuel_chain _ l (Nat.lt_succ_self _), ?_⟩
  intro hpos
  have hperm := bubble_fuel_perm (glyph_inversions l + 1) l
  have hpos' : ∀ g ∈ reorder_combining_chars l, 0 < glyph_class g :=
    fun g hg => hpos g (hperm.mem_iff.mp hg)
  have hch := chain_noSwap_sorted _ hpos'
    (bubble_fuel_chain _ l (Nat.lt_succ_self _))
  haveI : IsTrans Glyph (fun x y => glyph_class x ≤ glyph_class y) :=
    ⟨fun _ _ _ hxy hyz => le_trans hxy hyz⟩
  exact List.chain'_iff_pairwise.mp hch

/-- A by-class mark glyph of the given combining class, for concrete tests. -/
def markOfClass (cls : Nat) : Glyph :=
  { nullGlyph with
      type := GlyphType.char
      c := 0x300
      combining_code := MAKE_COMBINING_CODE_BY_CLASS cls }

/-- Closed witness for C8: on a cluster whose marks have classes 230, 220,
220 (all positive), the reorderer sorts them stably to 220, 220, 230. -/
theorem reorder_combining_chars_spec_witness :
    List.Sorted (fun x y => glyph_class x ≤ glyph_class y)
      (reorder_combining_chars [markOfClass 230, markOfClass 220, markOfClass 220]) :=
  (reorder_combining_chars_spec
      [markOfClass 230, markOfClass 220, markOfClass 220]).2.2.2.2
    (by decide)

/-- Counterexample to C8 as stated: a cluster range holding marks of
combining classes 5, 0, 3 (class 0 occurs for spacing combining marks, e.g.
U+0903) is returned unchanged — the zero-class glyph is never swapped, so
the output is *not* in non-decreasing class order. -/
theorem reorder_combining_chars_not_sorting :
    reorder_combining_chars [markOfClass 5, markOfClass 0, markOfClass 3]
        = [markOfClass 5, markOfClass 0, markOfClass 3]
    ∧ ¬ List.Sorted (fun x y => glyph_class x ≤ glyph_class y)
        (reorder_combining_chars [markOfClass 5, markOfClass 0, markOfClass 3]) := by
  constructor
  · decide
  · decide

/-! ## Default line-break policy (`mdraw_default_line_break`, draw.c)

The text is modelled as its list of character codes; `mtext_ref_char` is
`List.getD` (out-of-range reads yield 0, which is not whitespace — the C
caller never reads out of range).  The two scan loops are primitive
recursions: the forward scan on the remaining distance to `to`, the backward
scan on the position itself. -/

/-- Whitespace as the line breaker sees it: space or tab. -/
def isBreakWS (c : Nat) : Bool :=
  c = 32 || c = 9

/-- The forward loop `pos++; while (pos < to && (c == ' ' || c == '\t')) pos++`
with fuel `to - pos`; `fwd_scan` below supplies exactly that fuel. -/
def fwd_scan_go (mt : List Nat) : Nat → Nat → Nat
  | 0, pos => pos
  | f + 1, pos => if isBreakWS (mt.getD pos 0) then fwd_scan_go mt f (pos + 1) else pos

/-- Forward whitespace skip bounded by `to_`. -/
def fwd_scan (mt : List Nat) (to_ pos : Nat) : Nat :=
  fwd_scan_go mt (to_ - pos) pos

/-- The backward loop `while (pos > from) { if (ws c) break; pos--; c = ...; }`:
the whitespace test is applied only at positions strictly greater than
`from_`, exactly as in the source. -/
def back_scan (mt : List Nat) (from_ : Nat) : Nat → Nat
  | 0 => 0
  | pos + 1 =>
      if from_ < pos + 1 then
        if isBreakWS (mt.getD (pos + 1) 0) then pos + 1 else back_scan mt from_ pos
      else pos + 1

/-- `mdraw_default_line_break` (draw.c): the engine's default break policy. -/
def mdraw_default_line_break (mt : List Nat) (pos from_ to_ : Nat) : Nat :=
  let c := mt.getD pos 0
  if isBreakWS c then fwd_scan mt to_ (pos + 1)
  else
    let p := back_scan mt from_ pos
    if p = from_ then pos else p + 1

theorem fwd_scan_go_ws (mt : List Nat) (m pos : Nat)
    (hws : isBreakWS (mt.getD pos 0) = true) :
    fwd_scan_go mt (m + 1) pos = fwd_scan_go mt m (pos + 1) := by
  simp only [fwd_scan_go]
  rw [if_pos hws]

theorem fwd_scan_go_stop (mt : List Nat) (m pos : Nat)
    (hws : ¬ isBreakWS (mt.getD pos 0) = true) :
    fwd_scan_go mt (m + 1) pos = pos := by
  simp only [fwd_scan_go]
  rw [if_neg hws]

theorem fwd_scan_go_spec (mt : List Nat) :
    ∀ (f pos : Nat),
      pos ≤ fwd_scan_go mt f pos
      ∧ fwd_scan_go mt f pos ≤ pos + f
      ∧ (∀ q, pos ≤ q → q < fwd_scan_go mt f pos → isBreakWS (mt.getD q 0) = true)
      ∧ (fwd_scan_go mt f pos < pos + f →
          isBreakWS (mt.getD (fwd_scan_go mt f pos) 0) = false) := by
  intro f
  induction f with
  | zero =>
    intro pos
    exact ⟨Nat.le_refl _, Nat.le_refl _, fun q hq hq2 => absurd (Nat.lt_of_le_of_lt hq hq2)
      (lt_irrefl _), fun h => absurd h (lt_irrefl _)⟩
  | succ m ih =>
    intro pos
    by_cases hws : isBreakWS (mt.getD pos 0) = true
    · have hrec := ih (pos + 1)
      have heq := fwd_scan_go_ws mt m pos hws
      refine ⟨?_, ?_, ?_, ?_⟩
      · rw [heq]; exact Nat.le_of_succ_le hrec.1
      · rw [heq]; omega
      · intro q hq hq2
        rcases Nat.eq_or_lt_of_le hq with h | h
        · rwa [← h]
        · exact hrec.2.2.1 q h (by rwa [← heq])
      · rw [heq]; intro h; exact hrec.2.2.2 (by omega)
    · have heq := fwd_scan_go_stop mt m pos hws
      refine ⟨by omega, by omega, ?_, ?_⟩
      · intro q hq hq2; omega
      · intro _; rw [heq]; exact (Bool.not_eq_true _).mp hws

theorem back_scan_self (mt : List Nat) (from_ : Nat) :
    back_scan mt from_ from_ = from_ := by
  cases from_ with
  | zero => rfl
  | succ k =>
    simp only [back_scan]
    rw [if_neg (lt_irrefl (k + 1))]

theorem back_scan_spec (mt : List Nat) (from_ : Nat) :
    ∀ pos : Nat,
      back_scan mt from_ pos ≤ pos
      ∧ (from_ < pos → from_ ≤ back_scan mt from_ pos)
      ∧ (∀ q, back_scan mt from_ pos < q → q ≤ pos → isBreakWS (mt.getD q 0) = false)
      ∧ (from_ < back_scan mt from_ pos → back_scan mt from_ pos ≤ pos →
          isBreakWS (mt.getD (back_scan mt from_ pos) 0) = true) := by
  intro pos
  induction pos with
  | zero =>
    exact ⟨Nat.le_refl _, fun h => absurd h (Nat.not_lt_zero _),
      fun q hq hq2 => by omega, fun h h2 => absurd (Nat.lt_of_lt_of_le h h2)
        (Nat.not_lt_zero _)⟩
  | succ p ih =>
    by_cases hgt : from_ < p + 1
    · by_cases hws : isBreakWS (mt.getD (p + 1) 0) = true
      · have heq : back_scan mt from_ (p + 1) = p + 1 := by
          simp only [back_scan]
          rw [if_pos hgt, if_pos hws]
        exact ⟨by omega, fun _ => by omega, fun q hq hq2 => by omega,
          fun _ _ => by rwa [heq]⟩
      · have heq : back_scan mt from_ (p + 1) = back_scan mt from_ p := by
          simp only [back_scan]
          rw [if_pos hgt, if_neg hws]
        refine ⟨by rw [heq]; exact Nat.le_succ_of_le ih.1, ?_, ?_, ?_⟩
        · intro _
          rcases Nat.lt_or_ge from_ p with h | h
          · rw [heq]; exact ih.2.1 h
          · have hfp : from_ = p := by omega
            rw [heq, ← hfp, back_scan_self]
        · intro q hq hq2
          rcases Nat.eq_or_lt_of_le hq2 with h | h
          · rw [h]; exact (Bool.not_eq_true _).mp hws
          · exact ih.2.2.1 q (by rwa [heq] at hq) (by omega)
        · intro h1 h2
          rw [heq] at h1 ⊢
          exact ih.2.2.2 h1 ih.1
    · have heq : back_scan mt from_ (p + 1) = p + 1 := by
        simp only [back_scan]
        rw [if_neg hgt]
      exact ⟨by omega, fun h => absurd h hgt, fun q hq hq2 => by omega,
        fun h _ => absurd (heq ▸ h) hgt⟩

/-- C2 (amended per the counterexample below). For `from ≤ pos < to`,
`mdraw_default_line_break` returns:
* whitespace branch — if the character at `pos` is a space or tab, the first
  position after `pos` holding no space/tab, bounded by `to`;
* backward branch — otherwise `p + 1` where `p` is the nearest whitespace
  position with `from < p < pos`; when no whitespace exists at a position
  *strictly greater than* `from` (even if the character at `from` itself is
  whitespace), `pos` is returned unchanged. -/
theorem mdraw_default_line_break_spec (mt : List Nat) (pos from_ to_ : Nat)
    (h1 : from_ ≤ pos) (h2 : pos < to_) :
    (isBreakWS (mt.getD pos 0) = true →
      pos < mdraw_default_line_break mt pos from_ to_
      ∧ mdraw_default_line_break mt pos from_ to_ ≤ to_
      ∧ (∀ q, pos ≤ q → q < mdraw_default_line_break mt pos from_ to_ →
          isBreakWS (mt.getD q 0) = true)
      ∧ (mdraw_default_line_break mt pos from_ to_ < to_ →
          isBreakWS (mt.getD (mdraw_default_line_break mt pos from_ to_) 0) = false))
    ∧ (isBreakWS (mt.getD pos 0) = false →
      ((∀ q, from_ < q → q < pos → isBreakWS (mt.getD q 0) = false) →
          mdraw_default_line_break mt pos from_ to_ = pos)
      ∧ (∀ p, from_ < p → p < pos → isBreakWS (mt.getD p 0) = true →
          (∀ q, p < q → q < pos → isBreakWS (mt.getD q 0) = false) →
          mdraw_default_line_break mt pos from_ to_ = p + 1)) := by
  constructor
  · intro hws
    have heq : mdraw_default_line_break mt pos from_ to_
        = fwd_scan_go mt (to_ - (pos + 1)) (pos + 1) := by
      simp only [mdraw_default_line_break, fwd_scan]
      rw [if_pos hws]
    have hsp := fwd_scan_go_spec mt (to_ - (pos + 1)) (pos + 1)
    refine ⟨?_, ?_, ?_, ?_⟩
    · rw [heq]; omega
    · rw [heq]; omega
    · intro q hq hq2
      rw [heq] at hq2
      rcases Nat.eq_or_lt_of_le hq with h | h
      · rwa [← h]
      · exact hsp.2.2.1 q h hq2
    · rw [heq]
      intro h
      exact hsp.2.2.2 (by omega)
  · intro hws
    have hwsf : ¬ isBreakWS (mt.getD pos 0) = true := by rw [hws]; simp
    have heq : mdraw_default_line_break mt pos from_ to_
        = (if back_scan mt from_ pos = from_ then pos else back_scan mt from_ pos + 1) := by
      simp only [mdraw_default_line_break]
      rw [if_neg hwsf]
    have hsp := back_scan_spec mt from_ pos
    constructor
    · intro hnows
      rw [heq]
      by_cases hp : back_scan mt from_ pos = from_
      · rw [if_pos hp]
      · exfalso
        have hlt : from_ < pos := by
          rcases Nat.eq_or_lt_of_le h1 with h | h
          · exact absurd (by rw [← h, back_scan_self]) hp
          · exact h
        have hge : from_ ≤ back_scan mt from_ pos := hsp.2.1 hlt
        have hgt2 : from_ < back_scan mt from_ pos := lt_of_le_of_ne hge (Ne.symm hp)
        have hwsp := hsp.2.2.2 hgt2 hsp.1
        have hne : back_scan mt from_ pos ≠ pos := by
          intro hcon; rw [hcon] at hwsp; exact hwsf hwsp
        exact absurd hwsp (by
          simp only [Bool.not_eq_true] at *
          exact hnows _ hgt2 (lt_of_le_of_ne hsp.1 hne) ▸ rfl)
    · intro p hp1 hp2 hp3 hp4
      rw [heq]
      have hbp : back_scan mt from_ pos = p := by
        rcases lt_trichotomy (back_scan mt from_ pos) p with h | h | h
        · exact absurd (hsp.2.2.1 p h (le_of_lt hp2)) (by rw [hp3]; simp)
        · exact h
        · exfalso
          have hle : back_scan mt from_ pos ≤ pos := hsp.1
          have hwsp := hsp.2.2.2 (lt_trans hp1 h) hle
          rcases Nat.eq_or_lt_of_le hle with he | hlt
          · rw [he] at hwsp; exact hwsf hwsp
          · exact absurd hwsp (by rw [hp4 _ h hlt]; simp)
      rw [hbp, if_neg (by omega)]

/-- Closed witness for C2 at `mt = " a"`, `pos = 0`, `from = 0`, `to = 2`
(whitespace branch): the returned break position lies strictly after `pos`
and within `to`. -/
theorem mdraw_default_line_break_spec_witness :
    0 < mdraw_default_line_break [32, 97] 0 0 2
    ∧ mdraw_default_line_break [32, 97] 0 0 2 ≤ 2 :=
  And.intro
    (((mdraw_default_line_break_spec [32, 97] 0 0 2 (by decide) (by decide)).1
      (by decide)).1)
    (((mdraw_default_line_break_spec [32, 97] 0 0 2 (by decide) (by decide)).1
      (by decide)).2.1)

/-- Counterexample to C2 as stated: on `mt = " ab"` with `from = 0`,
`to = 3`, `pos = 2`, the character at `pos` is not whitespace and the nearest
whitespace strictly before `pos` sits exactly at `from = 0` (no whitespace in
between), yet the function returns `pos = 2` unchanged instead of the
claimed `0 + 1 = 1`: the backward loop never tests the character at `from`. -/
theorem mdraw_default_line_break_misses_ws_at_from :
    mdraw_default_line_break [32, 97, 98] 2 0 3 = 2
    ∧ isBreakWS (([32, 97, 98] : List Nat).getD 0 0) = true
    ∧ (∀ q, 0 < q → q < 2 → isBreakWS (([32, 97, 98] : List Nat).getD q 0) = false)
    ∧ mdraw_default_line_break [32, 97, 98] 2 0 3 ≠ 0 + 1 := by
  refine ⟨by decide, by decide, ?_, by decide⟩
  intro q h1 h2
  have hq : q = 1 := by omega
  subst hq
  decide

/-! ## Line breaker (`truncate_gstring`, draw.c)

`truncate_gstring` computes a per-character width table, walks it greedily
until the width limit would be exceeded, optionally consults the
`control.line_break` callback, and recomposes + re-lays-out the glyph string
over `[from, break_pos)`.  The model separates the break-position
computation (`truncate_break`, `none` = the early return that leaves the
glyph string untouched) from the recompose step, which is passed in as a
function parameter (it is `compose_glyph_string` followed by
`layout_glyph_string` in the source). -/

/-- The `pos_width` table: `pos_width[i - from]` accumulates the widths of
all glyphs whose `pos` is `i` (0 inside a grapheme cluster). -/
def pos_width (gs : GlyphString) : List Int :=
  gs.glyphs.foldl
    (fun acc g => acc.set (g.pos - gs.from_) (acc.getD (g.pos - gs.from_) 0 + g.width))
    (List.replicate (gs.to_ - gs.from_) 0)

/-- The greedy loop of `truncate_gstring`: walk the width table accumulating
`width`, stopping at the first cluster start whose addition would exceed the
limit. -/
def greedy_go (limit : Int) : Int → Nat → List Int → Nat
  | _, i, [] => i
  | width, i, w :: rest =>
      if 0 < w ∧ limit < width + w then i
      else greedy_go limit (width + w) (i + 1) rest

/-- Index of the greedy overflow point relative to `from`. -/
def greedy_break (pw : List Int) (limit : Int) : Nat :=
  greedy_go limit 0 0 pw

/-- The break range `truncate_gstring` passes to the recompose step, or
`none` for the early return taken when a custom `line_break` callback
answers a position outside `(from, to)`. -/
def truncate_break (gs : GlyphString) : Option (Nat × Nat) :=
  let i := greedy_break (pos_width gs) gs.width_limit
  match gs.control.line_break with
  | none => some (gs.from_, gs.from_ + i)
  | some cb =>
      let pos := cb gs.mt (gs.from_ + i) gs.from_ gs.to_
      if pos ≤ gs.from_ ∨ gs.to_ ≤ pos then none else some (gs.from_, pos)

/-- `truncate_gstring` (draw.c): either returns with the glyph string
untouched (rejected callback answer) or rebuilds it from the break range
(`recompose` stands for `compose_glyph_string` + `layout_glyph_string`). -/
def truncate_gstring (recompose : Nat → Nat → GlyphString) (gs : GlyphString) :
    GlyphString :=
  match truncate_break gs with
  | none => gs
  | some (a, b) => recompose a b

theorem greedy_go_spec (limit : Int) :
    ∀ (pw : List Int) (width : Int) (i : Nat),
      ∃ k, greedy_go limit width i pw = i + k ∧ k ≤ pw.length
        ∧ (∀ j, j < k →
            ¬ (0 < pw.getD j 0 ∧ limit < width + (pw.take j).sum + pw.getD j 0))
        ∧ (k < pw.length →
            0 < pw.getD k 0 ∧ limit < width + (pw.take k).sum + pw.getD k 0) := by
  intro pw
  induction pw with
  | nil =>
    intro width i
    exact ⟨0, rfl, Nat.le_refl _, fun j hj => absurd hj (Nat.not_lt_zero _),
      fun h => absurd h (Nat.not_lt_zero _)⟩
  | cons w rest ih =>
    intro width i
    by_cases hbr : 0 < w ∧ limit < width + w
    · refine ⟨0, ?_, Nat.zero_le _, fun j hj => absurd hj (Nat.not_lt_zero _), ?_⟩
      · simp [greedy_go, hbr]
      · intro _
        simpa using hbr
    · obtain ⟨k', hk1, hk2, hk3, hk4⟩ := ih (width + w) (i + 1)
      refine ⟨k' + 1, ?_, by simpa using Nat.succ_le_succ hk2, ?_, ?_⟩
      · simp only [greedy_go, if_neg hbr]
        omega
      · intro j hj
        match j with
        | 0 => simpa using hbr
        | j' + 1 =>
          have := hk3 j' (by omega)
          simp only [List.getD_cons_succ, List.take_succ_cons, List.sum_cons] at *
          intro hcon
          exact this ⟨hcon.1, by linarith [hcon.2]⟩
      · intro hlen
        have := hk4 (by simpa using hlen)
        simp only [List.getD_cons_succ, List.take_succ_cons, List.sum_cons] at *
        exact ⟨this.1, by linarith [this.2]⟩

/-- C1 (amended per the counterexample below): when the control carries no
`line_break` callback, `truncate_gstring` breaks exactly at the greedy
overflow point `from + i` — the default whitespace policy of
`mdraw_default_line_break` is *not* applied unless the caller installs it as
the callback — and the first line is recomposed over `[from, from + i)`.
The index `i` is the first position of the width table that is a cluster
start (positive entry) whose addition to the accumulated width exceeds
`width_limit`, or the table length when no entry overflows. -/
theorem truncate_gstring_default_is_greedy (gs : GlyphString)
    (hcb : gs.control.line_break = none) :
    truncate_break gs
      = some (gs.from_, gs.from_ + greedy_break (pos_width gs) gs.width_limit)
    ∧ (∀ recompose, truncate_gstring recompose gs
        = recompose gs.from_ (gs.from_ + greedy_break (pos_width gs) gs.width_limit))
    ∧ greedy_break (pos_width gs) gs.width_limit ≤ (pos_width gs).length
    ∧ (∀ j, j < greedy_break (pos_width gs) gs.width_limit →
        ¬ (0 < (pos_width gs).getD j 0
           ∧ gs.width_limit < ((pos_width gs).take j).sum + (pos_width gs).getD j 0))
    ∧ (greedy_break (pos_width gs) gs.width_limit < (pos_width gs).length →
        0 < (pos_width gs).getD (greedy_break (pos_width gs) gs.width_limit) 0
        ∧ gs.width_limit <
            ((pos_width gs).take (greedy_break (pos_width gs) gs.width_limit)).sum
            + (pos_width gs).getD (greedy_break (pos_width gs) gs.width_limit) 0) := by
  have htb : truncate_break gs
      = some (gs.from_, gs.from_ + greedy_break (pos_width gs) gs.width_limit) := by
    simp only [truncate_break, hcb]
  obtain ⟨k, hk1, hk2, hk3, hk4⟩ := greedy_go_spec gs.width_limit (pos_width gs) 0 0
  have hkk : greedy_break (pos_width gs) gs.width_limit = k := by
    simpa [greedy_break] using hk1
  refine ⟨htb, ?_, ?_, ?_, ?_⟩
  · intro recompose
    simp [truncate_gstring, htb]
  · rw [hkk]; exact hk2
  · intro j hj
    rw [hkk] at hj
    simpa using hk3 j hj
  · intro hlen
    rw [hkk] at hlen ⊢
    simpa using hk4 hlen

/-- A plain character glyph for concrete tests. -/
def charGlyph (c pos : Nat) (w : Int) : Glyph :=
  { nullGlyph with
      type := GlyphType.char
      c := c
      pos := pos
      to_ := pos + 1
      width := w
      rbearing := w }

/-- A control with two-dimensional layout, a width limit of 45 and no
custom line-break callback. -/
def noBreakControl : Control :=
  { enable_bidi := false, orientation_reversed := false, two_dimensional := true,
    max_line_width := 45, tab_width := 0, min_line_ascent := 0,
    min_line_descent := 0, max_line_ascent := 0, max_line_descent := 0,
    cursor_width := 0, cursor_bidi := false, fixed_width := false,
    align_head := false, ignore_formatting_char := false, line_break := none }

/-- A laid-out glyph string for the text `"ab cde"`, every character 10
units wide, total width 60 over a width limit of 45. -/
def gsABCDE : GlyphString :=
  { mt := [97, 98, 32, 99, 100, 101], from_ := 0, to_ := 6, width := 60,
    width_limit := 45, control := noBreakControl,
    glyphs := [charGlyph 97 0 10, charGlyph 98 1 10, charGlyph 32 2 10,
               charGlyph 99 3 10, charGlyph 100 4 10, charGlyph 101 5 10] }

/-- Closed witness for C1 on `gsABCDE`: the break range is `[0, 4)`, the
greedy overflow point. -/
theorem truncate_gstring_default_is_greedy_witness :
    truncate_break gsABCDE
      = some (gsABCDE.from_,
          gsABCDE.from_ + greedy_break (pos_width gsABCDE) gsABCDE.width_limit) :=
  (truncate_gstring_default_is_greedy gsABCDE rfl).1

/-- The break position C1 claims for the default (callback-less) case: the
greatest whitespace position in `[from, i)`, or `i` itself when that range
holds no whitespace. -/
def claim_ws_scan (mt : List Nat) (from_ : Nat) : Nat → Option Nat
  | 0 => none
  | p + 1 =>
      if from_ ≤ p ∧ isBreakWS (mt.getD p 0) then some p
      else claim_ws_scan mt from_ p

/-- The claimed default break position (see `claim_ws_scan`). -/
def claim_break_pos (mt : List Nat) (from_ i : Nat) : Nat :=
  (claim_ws_scan mt from_ i).getD i

/-- Counterexample to C1 as stated: for the overflowing `"ab cde"` line
(`gsABCDE`, width 60 > limit 45) with no `line_break` callback, the greedy
overflow point is character 4 and `truncate_gstring` recomposes `[0, 4)` —
it does not retreat to the whitespace at position 2 as the claim's default
policy demands (that policy only runs if `mdraw_default_line_break` is
installed as the callback). -/
theorem truncate_gstring_ignores_whitespace :
    gsABCDE.control.line_break = none
    ∧ gsABCDE.width_limit < gsABCDE.width
    ∧ greedy_break (pos_width gsABCDE) gsABCDE.width_limit = 4
    ∧ truncate_break gsABCDE = some (0, 4)
    ∧ claim_break_pos gsABCDE.mt gsABCDE.from_ 4 = 2
    ∧ (4 : Nat) ≠ 2 := by
  refine ⟨rfl, by decide, by decide, by decide, by decide, by decide⟩

/-- C10. When a custom `line_break` callback answers a position outside the
open interval `(from, to)`, `truncate_gstring` returns immediately: the
glyph string (buffer, metrics, every field) is exactly as before the call,
whatever the recompose step would have produced. -/
theorem truncate_gstring_rejected_break (gs : GlyphString)
    (cb : List Nat → Nat → Nat → Nat → Nat)
    (hcb : gs.control.line_break = some cb)
    (hout : cb gs.mt (gs.from_ + greedy_break (pos_width gs) gs.width_limit)
              gs.from_ gs.to_ ≤ gs.from_
            ∨ gs.to_ ≤ cb gs.mt
                (gs.from_ + greedy_break (pos_width gs) gs.width_limit)
                gs.from_ gs.to_) :
    ∀ recompose, truncate_gstring recompose gs = gs := by
  intro recompose
  have htb : truncate_break gs = none := by
    simp only [truncate_break, hcb]
    rw [if_pos hout]
  simp [truncate_gstring, htb]

/-- A glyph string whose callback always answers 0, i.e. a position at (not
inside) the range start — a rejected break answer. -/
def gsRejected : GlyphString :=
  { gsABCDE with control := { noBreakControl with line_break := some fun _ _ _ _ => 0 } }

/-- Closed witness for C10: with the always-0 callback the glyph string is
returned untouched even though the recompose parameter would have replaced
it wholesale. -/
theorem truncate_gstring_rejected_break_witness :
    truncate_gstring (fun _ _ => gsABCDE) gsRejected = gsRejected :=
  truncate_gstring_rejected_break gsRejected (fun _ _ _ _ => 0) rfl
    (Or.inl (by decide)) (fun _ _ => gsABCDE)

/-! ## Visual reordering (`visual_order`, draw.c)

`visual_order` first walks the buffer cluster by cluster (a base glyph plus
its following glyphs with non-zero `combining_code`), reading each base
character's bidi category through the `Mbidi_category` character property
(a capability, passed here as `bc`); any R / AL / RLE / RLO category — or
`control.orientation_reversed` — makes the string bidi-sensitive.  A
non-sensitive string is returned untouched.  Otherwise the glyph buffer is
rewritten cluster by cluster in visual order and every glyph is tagged with
its level.  The model follows the build without the optional FriBidi
library (`!HAVE_FRIBIDI`): levels are 0/1 and runs of level-1 clusters are
reversed; the FriBidi-only mirroring step does not exist in this build. -/

/-- Bidi categories distinguished by `visual_order` (all others behave
alike). -/
inductive BidiCat where
  | catL
  | catR
  | catAL
  | catRLE
  | catRLO
  | catOther
deriving DecidableEq, Repr

/-- The RTL test of the collection loop: `bidi == MbidiR || bidi == MbidiAL
|| bidi == MbidiRLE || bidi == MbidiRLO`. -/
def bidi_rtl_p : BidiCat → Bool
  | BidiCat.catR => true
  | BidiCat.catAL => true
  | BidiCat.catRLE => true
  | BidiCat.catRLO => true
  | _ => false

/-- Splits off the leading run of combining glyphs (the marks of the cluster
whose base directly precedes): returns (marks, remainder). -/
def clusterTake : List Glyph → List Glyph × List Glyph
  | [] => ([], [])
  | x :: xs =>
      if x.combining_code ≠ 0 then
        ((x :: (clusterTake xs).1), (clusterTake xs).2)
      else ([], x :: xs)

/-- Cluster decomposition with explicit fuel; `clustersOf` supplies fuel
`length`, which always suffices since every step consumes the base glyph. -/
def clustersFuel : Nat → List Glyph → List (List Glyph)
  | 0, _ => []
  | _, [] => []
  | f + 1, g :: rest =>
      (g :: (clusterTake rest).1) :: clustersFuel f (clusterTake rest).2

/-- The cluster decomposition the collection loop of `visual_order` walks:
each cluster is a base glyph followed by its glyphs with non-zero
`combining_code`. -/
def clustersOf (l : List Glyph) : List (List Glyph) :=
  clustersFuel l.length l

/-- Per-cluster embedding levels: 1 for a strong-RTL base character, else 0
(the `levels[]` array of the collection loop). -/
def cluster_levels (bc : Nat → BidiCat) (cs : List (List Glyph)) : List Nat :=
  cs.map (fun c => if bidi_rtl_p (bc (c.headD nullGlyph).c) then 1 else 0)

/-- The `!HAVE_FRIBIDI` visual index computation: maximal runs of level-1
clusters are reversed, level-0 clusters stay in place (fuel-driven; the
fuel `length` always suffices). -/
def naiveIdxFuel : Nat → Nat → List Nat → List Nat
  | 0, _, _ => []
  | _, _, [] => []
  | f + 1, pos, lv :: rest =>
      if lv ≠ 0 then
        let k := (rest.takeWhile (fun x => x ≠ 0)).length
        ((List.range (k + 1)).map (fun t => pos + k - t))
          ++ naiveIdxFuel f (pos + k + 1) (rest.dropWhile (fun x => x ≠ 0))
      else pos :: naiveIdxFuel f (pos + 1) rest

/-- `indices[]`: for each visual position, the logical cluster index. -/
def naiveIndices (levels : List Nat) : List Nat :=
  naiveIdxFuel levels.length 0 levels

/-- Write a glyph's `bidi_level` (done for every copied glyph of a
cluster). -/
def setLevel (lv : Nat) (g : Glyph) : Glyph :=
  { g with bidi_level := lv }

/-- `visual_order` (draw.c, `!HAVE_FRIBIDI` build): early return when
neither `orientation_reversed` nor any strong-RTL base character is
present; otherwise rewrite the buffer cluster by cluster in visual order,
tagging levels. -/
def visual_order (bc : Nat → BidiCat) (ctl : Control) (gs : List Glyph) :
    List Glyph :=
  let cs := clustersOf gs
  let levels := cluster_levels bc cs
  let sensitive := ctl.orientation_reversed || levels.any (fun x => x ≠ 0)
  if sensitive = false then gs
  else
    List.flatten ((naiveIndices levels).map
      (fun j => (cs.getD j []).map (setLevel (levels.getD j 0))))

/-- The final step of `compose_glyph_string`: the reorderer runs only when
`control.enable_bidi` is set. -/
def compose_visual_step (bc : Nat → BidiCat) (ctl : Control) (gs : List Glyph) :
    List Glyph :=
  if ctl.enable_bidi then visual_order bc ctl gs else gs

theorem clusterTake_append (l : List Glyph) :
    (clusterTake l).1 ++ (clusterTake l).2 = l := by
  induction l with
  | nil => rfl
  | cons x xs ih =>
    by_cases h : x.combining_code ≠ 0
    · simp [clusterTake, h, ih]
    · simp [clusterTake, h]

theorem clusterTake_len (l : List Glyph) :
    (clusterTake l).2.length ≤ l.length := by
  induction l with
  | nil => exact Nat.le_refl _
  | cons x xs ih =>
    by_cases h : x.combining_code ≠ 0
    · simp only [clusterTake, if_pos h]
      exact le_trans ih (Nat.le_succ _)
    · simp [clusterTake, h]

theorem clustersFuel_flatten :
    ∀ (f : Nat) (l : List Glyph), l.length ≤ f → (clustersFuel f l).flatten = l := by
  intro f
  induction f with
  | zero =>
    intro l hl
    rw [Nat.le_zero] at hl
    rw [List.length_eq_zero] at hl
    subst hl
    rfl
  | succ m ih =>
    intro l hl
    cases l with
    | nil => rfl
    | cons g rest =>
      have hrec : (clusterTake rest).2.length ≤ m := by
        have := clusterTake_len rest
        simp only [List.length_cons] at hl
        omega
      simp only [clustersFuel, List.flatten_cons, ih _ hrec, List.cons_append]
      rw [clusterTake_append]

theorem clustersOf_flatten (l : List Glyph) : (clustersOf l).flatten = l :=
  clustersFuel_flatten l.length l (Nat.le_refl _)

theorem mem_clustersOf_mem (l : List Glyph) (c : List Glyph) (g : Glyph)
    (hc : c ∈ clustersOf l) (hg : g ∈ c) : g ∈ l := by
  rw [← clustersOf_flatten l]
  exact List.mem_flatten.mpr ⟨c, hc, hg⟩

theorem clustersFuel_ne_nil :
    ∀ (f : Nat) (l : List Glyph), ∀ c ∈ clustersFuel f l, c ≠ [] := by
  intro f
  induction f with
  | zero => intro l c hc; simp [clustersFuel] at hc
  | succ m ih =>
    intro l c hc
    cases l with
    | nil => simp [clustersFuel] at hc
    | cons g rest =>
      simp only [clustersFuel, List.mem_cons] at hc
      rcases hc with h | h
      · subst h; exact List.cons_ne_nil _ _
      · exact ih _ c h

/-- C5. (a) For a glyph string containing no character of bidi category
R / AL / RLE / RLO, with `orientation_reversed` false, `visual_order`
returns with the glyph buffer unchanged and every glyph's `bidi_level`
still zero (composition initializes all levels to zero).  (b) When
`control.enable_bidi` is false the reorderer is not invoked at all, so even
RTL-only text is returned unchanged with all levels zero. -/
theorem visual_order_ltr_identity (bc : Nat → BidiCat) (ctl : Control)
    (gs : List Glyph)
    (hlev : ∀ g ∈ gs, g.bidi_level = 0)
    (hrev : ctl.orientation_reversed = false)
    (hnortl : ∀ g ∈ gs, bidi_rtl_p (bc g.c) = false)
    (bc2 : Nat → BidiCat) (ctl2 : Control) (gs2 : List Glyph)
    (hlev2 : ∀ g ∈ gs2, g.bidi_level = 0)
    (hb2 : ctl2.enable_bidi = false) :
    visual_order bc ctl gs = gs
    ∧ (∀ g ∈ visual_order bc ctl gs, g.bidi_level = 0)
    ∧ compose_visual_step bc2 ctl2 gs2 = gs2
    ∧ (∀ g ∈ compose_visual_step bc2 ctl2 gs2, g.bidi_level = 0) := by
  have hlevels : ∀ lv ∈ cluster_levels bc (clustersOf gs), lv = 0 := by
    intro lv hlv
    rcases List.mem_map.mp hlv with ⟨c, hc, hrfl⟩
    have hcne : c ≠ [] := clustersFuel_ne_nil gs.length gs c hc
    have hhead : c.headD nullGlyph ∈ gs := by
      apply mem_clustersOf_mem gs c _ hc
      cases c with
      | nil => exact absurd rfl hcne
      | cons x xs => exact List.mem_cons_self x xs
    rw [← hrfl, hnortl _ hhead]
    simp
  have hsens : (ctl.orientation_reversed
      || (cluster_levels bc (clustersOf gs)).any (fun x => x ≠ 0)) = false := by
    rw [hrev]
    simp only [Bool.false_or, List.any_eq_false]
    intro lv hlv
    simp [hlevels lv hlv]
  have h1 : visual_order bc ctl gs = gs := by
    simp only [visual_order]
    rw [if_pos hsens]
  have h3 : compose_visual_step bc2 ctl2 gs2 = gs2 := by
    simp [compose_visual_step, hb2]
  exact ⟨h1, by rw [h1]; exact hlev, h3, by rw [h3]; exact hlev2⟩

/-- A concrete all-category map marking every character strong-RTL. -/
def bcAllR : Nat → BidiCat := fun _ => BidiCat.catR

/-- A concrete all-category map marking every character L. -/
def bcAllL : Nat → BidiCat := fun _ => BidiCat.catL

/-- A control with bidi reordering enabled, LTR base direction. -/
def bidiOnControl : Control :=
  { noBreakControl with enable_bidi := true }

/-- Closed witness for C5: an LTR-only two-glyph buffer is untouched by
`visual_order` under `bidiOnControl`, and an RTL-only buffer is untouched by
the compose step once `enable_bidi` is off. -/
theorem visual_order_ltr_identity_witness :
    visual_order bcAllL bidiOnControl [charGlyph 97 0 10, charGlyph 98 1 10]
      = [charGlyph 97 0 10, charGlyph 98 1 10]
    ∧ compose_visual_step bcAllR noBreakControl [charGlyph 0x5D0 0 12]
      = [charGlyph 0x5D0 0 12] :=
  And.intro
    (visual_order_ltr_identity bcAllL bidiOnControl
      [charGlyph 97 0 10, charGlyph 98 1 10] (by decide) rfl (by decide)
      bcAllR noBreakControl [charGlyph 0x5D0 0 12] (by decide) rfl).1
    (visual_order_ltr_identity bcAllL bidiOnControl
      [charGlyph 97 0 10, charGlyph 98 1 10] (by decide) rfl (by decide)
      bcAllR noBreakControl [charGlyph 0x5D0 0 12] (by decide) rfl).2.2.1

theorem takeWhile_dropWhile_length (p : Nat → Bool) (l : List Nat) :
    (l.takeWhile p).length + (l.dropWhile p).length = l.length := by
  conv_rhs => rw [← List.takeWhile_append_dropWhile p l]
  rw [List.length_append]

theorem rev_block_eq (pos k : Nat) :
    (List.range (k + 1)).map (fun t => pos + k - t)
      = (List.range' pos (k + 1)).reverse := by
  apply List.ext_getElem
  · simp
  · intro i h1 h2
    rw [List.getElem_map, List.getElem_range, List.getElem_reverse,
      List.getElem_range']
    simp only [List.length_map, List.length_range, List.length_range',
      List.length_reverse] at h1 h2 ⊢
    omega

theorem naiveIdxFuel_perm :
    ∀ (f : Nat) (levels : List Nat) (pos : Nat), levels.length ≤ f →
      (naiveIdxFuel f pos levels).Perm (List.range' pos levels.length) := by
  intro f
  induction f with
  | zero =>
    intro levels pos hl
    rw [Nat.le_zero, List.length_eq_zero] at hl
    subst hl
    exact List.Perm.refl _
  | succ m ih =>
    intro levels pos hl
    cases levels with
    | nil => exact List.Perm.refl _
    | cons lv rest =>
      have hrest : rest.length ≤ m := by simpa using hl
      by_cases hlv : lv ≠ 0
      · set k := (rest.takeWhile (fun x => x ≠ 0)).length with hkdef
        set dl := (rest.dropWhile (fun x => x ≠ 0)).length with hdldef
        have hkd : k + dl = rest.length := takeWhile_dropWhile_length _ rest
        have heq : naiveIdxFuel (m + 1) pos (lv :: rest)
            = ((List.range (k + 1)).map (fun t => pos + k - t))
              ++ naiveIdxFuel m (pos + k + 1) (rest.dropWhile (fun x => x ≠ 0)) := by
          simp only [naiveIdxFuel]
          rw [if_pos hlv]
        have hrec := ih (rest.dropWhile (fun x => x ≠ 0)) (pos + k + 1) (by omega)
        have happ : List.range' pos (k + 1) ++ List.range' (pos + k + 1) dl
            = List.range' pos (lv :: rest).length := by
          have h1 : pos + k + 1 = pos + 1 * (k + 1) := by ring
          rw [h1, List.range'_append]
          congr 1
          simp only [List.length_cons]
          omega
        rw [heq, rev_block_eq]
        have hperm := (List.reverse_perm (List.range' pos (k + 1))).append hrec
        rw [← hdldef] at hperm
        rw [happ] at hperm
        exact hperm
      · have heq : naiveIdxFuel (m + 1) pos (lv :: rest)
            = pos :: naiveIdxFuel m (pos + 1) rest := by
          simp only [naiveIdxFuel]
          rw [if_neg hlv]
        rw [heq]
        have : List.range' pos (lv :: rest).length
            = pos :: List.range' (pos + 1) rest.length := by
          simp only [List.length_cons]
          rw [List.range'_succ]
        rw [this]
        exact (ih rest (pos + 1) hrest).cons pos

theorem range_map_getD {α : Type} (l : List α) (d : α) :
    (List.range l.length).map (fun j => l.getD j d) = l := by
  apply List.ext_getElem
  · simp
  · intro i h1 h2
    rw [List.getElem_map, List.getElem_range, List.getD_eq_getElem l d h2]

theorem perm_map_getD {α : Type} (l : List α) (d : α) (idxs : List Nat)
    (h : idxs.Perm (List.range l.length)) :
    (idxs.map (fun j => l.getD j d)).Perm l := by
  have := h.map (fun j => l.getD j d)
  rwa [range_map_getD] at this

/-- Glyphs compared with their `bidi_level` blanked out: `visual_order`
rewrites that one field on every glyph it copies. -/
def eraseLevel (g : Glyph) : Glyph :=
  { g with bidi_level := 0 }

theorem getD_cluster_map (L : List (List Glyph)) (j : Nat) :
    (L.getD j []).map eraseLevel
      = (L.map (fun c => c.map eraseLevel)).getD j [] := by
  by_cases h : j < L.length
  · rw [List.getD_eq_getElem L [] h,
      List.getD_eq_getElem (L.map (fun c => c.map eraseLevel)) []
        (by simpa using h),
      List.getElem_map]
  · rw [List.getD_eq_default _ _ (by omega),
      List.getD_eq_default _ _ (by simpa using Nat.le_of_not_lt h)]
    rfl

/-- C6 (amended per the counterexample below): up to the `bidi_level` tag —
which the reordering pass rewrites on every glyph — `visual_order` emits a
permutation of the input's clusters laid out contiguously: the output is the
concatenation of a permutation of the cluster decomposition, so the glyph
multiset is preserved modulo levels, each cluster's glyphs stay contiguous,
and within every cluster the base still precedes its marks in input order. -/
theorem visual_order_cluster_structure (bc : Nat → BidiCat) (ctl : Control)
    (gs : List Glyph) :
    ∃ cs' : List (List Glyph),
      cs'.Perm ((clustersOf gs).map (fun c => c.map eraseLevel))
      ∧ (visual_order bc ctl gs).map eraseLevel = cs'.flatten
      ∧ ((visual_order bc ctl gs).map eraseLevel).Perm (gs.map eraseLevel) := by
  by_cases hs : (ctl.orientation_reversed
      || (cluster_levels bc (clustersOf gs)).any (fun x => x ≠ 0)) = false
  · have hvo : visual_order bc ctl gs = gs := by
      simp only [visual_order]
      rw [if_pos hs]
    refine ⟨(clustersOf gs).map (fun c => c.map eraseLevel), List.Perm.refl _, ?_, ?_⟩
    · rw [hvo, ← List.map_flatten, clustersOf_flatten]
    · rw [hvo]
  · have hvo : visual_order bc ctl gs
        = List.flatten ((naiveIndices (cluster_levels bc (clustersOf gs))).map
            (fun j => ((clustersOf gs).getD j []).map
              (setLevel ((cluster_levels bc (clustersOf gs)).getD j 0)))) := by
      simp only [visual_order]
      rw [if_neg hs]
    have hcomp : ∀ lv : Nat, eraseLevel ∘ setLevel lv = eraseLevel := by
      intro lv
      funext g
      rfl
    have herase : ∀ j : Nat,
        (((clustersOf gs).getD j []).map
            (setLevel ((cluster_levels bc (clustersOf gs)).getD j 0))).map eraseLevel
          = ((clustersOf gs).map (fun c => c.map eraseLevel)).getD j [] := by
      intro j
      rw [List.map_map, hcomp, getD_cluster_map]
    have hmap : (visual_order bc ctl gs).map eraseLevel
        = ((naiveIndices (cluster_levels bc (clustersOf gs))).map
            (fun j => ((clustersOf gs).map (fun c => c.map eraseLevel)).getD j [])).flatten := by
      rw [hvo, List.map_flatten, List.map_map]
      congr 1
      apply List.map_congr_left
      intro j _
      simp only [Function.comp_apply]
      exact herase j
    have hlen : (cluster_levels bc (clustersOf gs)).length
        = ((clustersOf gs).map (fun c => c.map eraseLevel)).length := by
      simp [cluster_levels]
    have hidx : (naiveIndices (cluster_levels bc (clustersOf gs))).Perm
        (List.range ((clustersOf gs).map (fun c => c.map eraseLevel)).length) := by
      rw [List.range_eq_range', ← hlen]
      exact naiveIdxFuel_perm _ _ 0 (Nat.le_refl _)
    have hperm := perm_map_getD ((clustersOf gs).map (fun c => c.map eraseLevel)) []
      (naiveIndices (cluster_levels bc (clustersOf gs))) hidx
    refine ⟨_, hperm, hmap, ?_⟩
    rw [hmap]
    have := hperm.flatten
    refine this.trans ?_
    rw [← List.map_flatten, clustersOf_flatten]

/-- Counterexample to C6 as stated: a single strong-RTL cluster makes the
pass bidi-sensitive; the output glyph gets `bidi_level = 1`, so the output
is *not* a permutation of the input glyph records (it differs in the level
field the claim's wording does not exempt). -/
theorem visual_order_not_multiset_preserving :
    visual_order bcAllR bidiOnControl [charGlyph 0x5D0 0 12]
      = [setLevel 1 (charGlyph 0x5D0 0 12)]
    ∧ ¬ (visual_order bcAllR bidiOnControl [charGlyph 0x5D0 0 12]).Perm
        [charGlyph 0x5D0 0 12] := by
  constructor
  · decide
  · decide

/-! ## Layouter (`layout_glyph_string` / `layout_glyphs`, draw.c) -/

/-- The default tab width of `layout_glyph_string`:
`frame->space_width * (control.tab_width ? control.tab_width : 8)`. -/
def tab_width_of (frame_space_width : Int) (ctl : Control) : Int :=
  frame_space_width * (if ctl.tab_width ≠ 0 then (ctl.tab_width : Int) else 8)

/-- The `GLYPH_SPACE` branch of the layout loop (draw.c): a space takes the
face's `space_width`; a newline takes the cursor width (3 under
`cursor_bidi`, the space width when negative); a tab is widened to
`tab_width - ((indent + accumulated_width) % tab_width)`; anything else gets
width 1.  A directly preceding pad glyph absorbs the width, down to the
2-unit minimum.  Finally `rbearing = width`. -/
def layout_space_glyph (ctl : Control) (tab_width indent gwidth : Int)
    (prev_type : GlyphType) (prev_width : Int) (g : Glyph) : Glyph :=
  let w1 : Int :=
    if g.c = 32 then g.rface.space_width
    else if g.c = 10 then
      if ctl.cursor_width ≠ 0 then
        (if ctl.cursor_bidi then 3
         else if ctl.cursor_width < 0 then g.rface.space_width
         else ctl.cursor_width)
      else ctl.cursor_width
    else if g.c = 9 then tab_width - Int.tmod (indent + gwidth) tab_width
    else 1
  let w2 : Int :=
    if prev_type = GlyphType.pad then
      (if w1 - prev_width < 1 then 2 else w1 - prev_width)
    else w1
  { g with width := w2, rbearing := w2 }

/-- C3. During layout a tab glyph's width is set to
`tab_width - ((indent + accumulated_width) tmod tab_width)` with
`tab_width = frame.space_width * (control.tab_width or 8)` (stated for a tab
not preceded by a pad glyph, whose absorption the spec describes
separately); in particular a tab at the very start of a line with
`indent = 0` is exactly `tab_width` wide. -/
theorem layout_tab_width (ctl : Control) (sw indent gwidth prev_width : Int)
    (prev_type : GlyphType) (g : Glyph)
    (hc : g.c = 9) (hprev : prev_type ≠ GlyphType.pad) :
    (layout_space_glyph ctl (tab_width_of sw ctl) indent gwidth prev_type
        prev_width g).width
      = tab_width_of sw ctl - Int.tmod (indent + gwidth) (tab_width_of sw ctl)
    ∧ (indent = 0 → gwidth = 0 →
        (layout_space_glyph ctl (tab_width_of sw ctl) indent gwidth prev_type
            prev_width g).width = tab_width_of sw ctl) := by
  have hw : (layout_space_glyph ctl (tab_width_of sw ctl) indent gwidth prev_type
      prev_width g).width
      = tab_width_of sw ctl - Int.tmod (indent + gwidth) (tab_width_of sw ctl) := by
    simp [layout_space_glyph, hc, hprev]
  refine ⟨hw, ?_⟩
  intro h0 h1
  rw [hw, h0, h1]
  norm_num

/-- Closed witness for C3: with `frame.space_width = 10` and the default
`control.tab_width = 0` (i.e. 8), a tab glyph at line start (`indent = 0`,
no accumulated width, previous glyph an anchor) gets width exactly 80. -/
theorem layout_tab_width_witness :
    (layout_space_glyph noBreakControl (tab_width_of 10 noBreakControl) 0 0
        GlyphType.anchor 0 (charGlyph 9 0 0)).width = tab_width_of 10 noBreakControl :=
  (layout_tab_width noBreakControl 10 0 0 0 GlyphType.anchor (charGlyph 9 0 0)
    rfl (by decide)).2 rfl rfl

/-- The result fields of the final metric pass of `layout_glyph_string`. -/
structure LineMetrics where
  ascent : Int
  descent : Int
  physical_ascent : Int
  physical_descent : Int
  text_ascent : Int
  text_descent : Int
  line_ascent : Int
  line_descent : Int
  height : Int
deriving DecidableEq, Repr

/-- The final metric pass of `layout_glyph_string` (draw.c): raises the text
box to the physical box, adds the box line height (which also resets the
physical box), clamps the line box to `[min_line_ascent, max_line_ascent]`
(the ceiling ignored when zero or not above the floor), same for descent,
then `height = line_ascent + line_descent`. -/
def layout_line_metrics (ctl : Control)
    (box_line_height ascent descent physical_ascent physical_descent : Int) :
    LineMetrics :=
  let text_ascent := if ascent < physical_ascent then physical_ascent else ascent
  let text_descent := if descent < physical_descent then physical_descent else descent
  let line_ascent0 := if 0 < box_line_height then text_ascent + box_line_height
    else text_ascent
  let physical_ascent1 := if 0 < box_line_height then line_ascent0 else physical_ascent
  let line_descent0 := if 0 < box_line_height then text_descent + box_line_height
    else text_descent
  let physical_descent1 := if 0 < box_line_height then line_descent0 else physical_descent
  let line_ascent := if line_ascent0 < ctl.min_line_ascent then ctl.min_line_ascent
    else if ctl.max_line_ascent ≠ 0 ∧ ctl.min_line_ascent < ctl.max_line_ascent
        ∧ ctl.max_line_ascent < line_ascent0 then ctl.max_line_ascent
    else line_ascent0
  let line_descent := if line_descent0 < ctl.min_line_descent then ctl.min_line_descent
    else if ctl.max_line_descent ≠ 0 ∧ ctl.min_line_descent < ctl.max_line_descent
        ∧ ctl.max_line_descent < line_descent0 then ctl.max_line_descent
    else line_descent0
  { ascent := ascent, descent := descent, physical_ascent := physical_ascent1,
    physical_descent := physical_descent1, text_ascent := text_ascent,
    text_descent := text_descent, line_ascent := line_ascent,
    line_descent := line_descent, height := line_ascent + line_descent }

/-- C9 (amended per the counterexample below): after the final metric pass,
`line_ascent ≥ max(ascent, physical_ascent)` and
`line_descent ≥ max(descent, physical_descent)` hold whenever the
`max_line_ascent` / `max_line_descent` ceilings are disabled — zero, or not
above the `min` floors, the two cases the C test
`max_line_ascent && max_line_ascent > min_line_ascent` ignores; an active
ceiling below the natural line box clamps `line_ascent` beneath the glyph
metrics, refuting the claim's "for any control values". -/
theorem layout_line_metrics_bounds (ctl : Control)
    (box_line_height ascent descent physical_ascent physical_descent : Int)
    (hmaxA : ctl.max_line_ascent = 0
      ∨ ctl.max_line_ascent ≤ ctl.min_line_ascent)
    (hmaxD : ctl.max_line_descent = 0
      ∨ ctl.max_line_descent ≤ ctl.min_line_descent) :
    max (layout_line_metrics ctl box_line_height ascent descent physical_ascent
          physical_descent).ascent
        (layout_line_metrics ctl box_line_height ascent descent physical_ascent
          physical_descent).physical_ascent
      ≤ (layout_line_metrics ctl box_line_height ascent descent physical_ascent
          physical_descent).line_ascent
    ∧ max (layout_line_metrics ctl box_line_height ascent descent physical_ascent
          physical_descent).descent
        (layout_line_metrics ctl box_line_height ascent descent physical_ascent
          physical_descent).physical_descent
      ≤ (layout_line_metrics ctl box_line_height ascent descent physical_ascent
          physical_descent).line_descent := by
  simp only [layout_line_metrics]
  constructor
  · rw [max_le_iff]
    constructor <;> (split_ifs <;> omega)
  · rw [max_le_iff]
    constructor <;> (split_ifs <;> omega)

/-- Closed witness for C9 with box height 5 and mixed metrics under disabled
ceilings. -/
theorem layout_line_metrics_bounds_witness :
    max (layout_line_metrics noBreakControl 5 7 3 9 1).ascent
        (layout_line_metrics noBreakControl 5 7 3 9 1).physical_ascent
      ≤ (layout_line_metrics noBreakControl 5 7 3 9 1).line_ascent :=
  (layout_line_metrics_bounds noBreakControl 5 7 3 9 1 (Or.inl rfl) (Or.inl rfl)).1

/-- A control whose `max_line_ascent` ceiling (50) is active. -/
def clampControl : Control :=
  { noBreakControl with max_line_ascent := 50 }

/-- Counterexample to C9 as stated: with `max_line_ascent = 50` and a glyph
ascent of 100 the pass clamps `line_ascent` to 50, strictly below
`max(ascent, physical_ascent) = 100` — the claimed inequality fails for
that control value. -/
theorem layout_line_metrics_clamped :
    (layout_line_metrics clampControl 0 100 0 0 0).line_ascent = 50
    ∧ (layout_line_metrics clampControl 0 100 0 0 0).ascent = 100
    ∧ ¬ (max (layout_line_metrics clampControl 0 100 0 0 0).ascent
          (layout_line_metrics clampControl 0 100 0 0 0).physical_ascent
        ≤ (layout_line_metrics clampControl 0 100 0 0 0).line_ascent) := by
  refine ⟨by decide, by decide, by decide⟩

/-- Resolution of a by-class combining code into its packed alignment code
(done lazily inside the cluster loop of `layout_glyphs`). -/
def resolved_code (g : Glyph) : Nat :=
  if COMBINING_BY_CLASS_P g.combining_code then
    combining_code_from_class (COMBINING_CODE_CLASS g.combining_code)
  else g.combining_code

/-- The running state of the combining-cluster loop of `layout_glyphs`
(draw.c): the cluster box `left/right/top/bottom/height` relative to the
base origin, the expanded character range `begin/end`, the running
`width/lbearing/rbearing`, and the marks processed so far. -/
structure ClusterState where
  left : Int
  right : Int
  top : Int
  bottom : Int
  height : Int
  begin_ : Nat
  end_ : Nat
  width : Int
  lbearing : Int
  rbearing : Int
  marks : List Glyph

/-- The loop initialization of the combining branch of `layout_glyphs`. -/
def init_cluster_state (base : Glyph) : ClusterState :=
  { left := -base.width, right := 0, top := -base.ascent, bottom := base.descent,
    height := base.descent - -base.ascent, begin_ := base.pos, end_ := base.to_,
    width := base.width,
    lbearing := if base.lbearing < 0 then base.lbearing else 0,
    rbearing := base.rbearing, marks := [] }

/-- One iteration of the combining-mark loop of `layout_glyphs` (draw.c):
resolve the by-class code, scale the offsets by `font_size/1000` (C
truncating division), place the mark (`xoff`/`yoff`), grow the cluster box,
expand the character range, and zero the mark's width. -/
def layout_mark (st : ClusterState) (g : Glyph) : ClusterState :=
  let code := resolved_code g
  let size := g.rface.font_size
  let off_x := Int.tdiv (size * ((COMBINING_CODE_OFF_X code : Int) - 128)) 1000
  let off_y := Int.tdiv (size * ((COMBINING_CODE_OFF_Y code : Int) - 128)) 1000
  let base_x := (COMBINING_CODE_BASE_X code : Int)
  let base_y := (COMBINING_CODE_BASE_Y code : Int)
  let add_x := (COMBINING_CODE_ADD_X code : Int)
  let add_y := (COMBINING_CODE_ADD_Y code : Int)
  let begin1 := if st.begin_ > g.pos then g.pos else st.begin_
  let end1 := if st.begin_ > g.pos then st.end_
    else if st.end_ < g.to_ then g.to_ else st.end_
  let xoff := st.left + Int.tdiv (st.width * base_x - g.width * add_x) 2 + off_x
  let left1 := if xoff < st.left then xoff else st.left
  let right1 := if xoff + g.width > st.right then xoff + g.width else st.right
  let width1 := right1 - left1
  let lbearing1 := if xoff + g.lbearing < left1 + st.lbearing
    then xoff + g.lbearing - left1 else st.lbearing
  let rbearing1 := if xoff + g.rbearing > left1 + st.rbearing
    then xoff + g.rbearing - left1 else st.rbearing
  let yoff0 := if base_y < 3 then st.top + Int.tdiv (st.height * base_y) 2 else 0
  let yoff1 := if add_y < 3
    then yoff0 - (Int.tdiv ((g.ascent + g.descent) * add_y) 2 - g.ascent)
    else yoff0
  let yoff := yoff1 - off_y
  let top1 := if yoff - g.ascent < st.top then yoff - g.ascent else st.top
  let bottom1 := if yoff + g.descent > st.bottom then yoff + g.descent else st.bottom
  let height1 := bottom1 - top1
  { left := left1, right := right1, top := top1, bottom := bottom1,
    height := height1, begin_ := begin1, end_ := end1, width := width1,
    lbearing := lbearing1, rbearing := rbearing1,
    marks := st.marks ++ [{ g with
      combining_code := code
      xoff := xoff
      yoff := yoff
      width := 0 }] }

/-- The combining branch of `layout_glyphs` (draw.c): run the mark loop,
move the cluster metrics onto the base, shift the cluster when it reaches
left of the origin, widen the base when it overhangs the advance (pulling
the marks back), and give every member the expanded character range. -/
def layout_glyphs_cluster (base : Glyph) (marks : List Glyph) :
    Glyph × List Glyph :=
  let st := marks.foldl layout_mark (init_cluster_state base)
  let b1 := { base with
    ascent := -st.top
    descent := st.bottom
    lbearing := st.lbearing
    rbearing := st.rbearing }
  let b2 := if st.left < -base.width then
      { b1 with
        xoff := -base.width - st.left
        width := b1.width + (-base.width - st.left)
        rbearing := b1.rbearing + (-base.width - st.left)
        lbearing := b1.lbearing + (-base.width - st.left) }
    else b1
  let b3 := if 0 < st.right then
      { b2 with
        width := b2.width + st.right
        rbearing := b2.rbearing + st.right
        right_padding := true }
    else b2
  let ms := if 0 < st.right then
      st.marks.map (fun m => { m with xoff := m.xoff - st.right })
    else st.marks
  ({ b3 with pos := st.begin_, to_ := st.end_ },
   ms.map (fun m => { m with pos := st.begin_, to_ := st.end_ }))

/-- The `begin`/`end` recurrence of the mark loop in isolation. -/
def range_step (be : Nat × Nat) (g : Glyph) : Nat × Nat :=
  (if be.1 > g.pos then g.pos else be.1,
   if be.1 > g.pos then be.2 else if be.2 < g.to_ then g.to_ else be.2)

/-- The expanded character range of a cluster. -/
def cluster_range (base : Glyph) (marks : List Glyph) : Nat × Nat :=
  marks.foldl range_step (base.pos, base.to_)

/-- The `top`/`bottom` recurrence of the mark loop in isolation (the
vertical placement depends on nothing horizontal). -/
def vert_step (tb : Int × Int) (g : Glyph) : Int × Int :=
  let code := resolved_code g
  let size := g.rface.font_size
  let off_y := Int.tdiv (size * ((COMBINING_CODE_OFF_Y code : Int) - 128)) 1000
  let base_y := (COMBINING_CODE_BASE_Y code : Int)
  let add_y := (COMBINING_CODE_ADD_Y code : Int)
  let yoff0 := if base_y < 3 then tb.1 + Int.tdiv ((tb.2 - tb.1) * base_y) 2 else 0
  let yoff1 := if add_y < 3
    then yoff0 - (Int.tdiv ((g.ascent + g.descent) * add_y) 2 - g.ascent)
    else yoff0
  let yoff := yoff1 - off_y
  (if yoff - g.ascent < tb.1 then yoff - g.ascent else tb.1,
   if yoff + g.descent > tb.2 then yoff + g.descent else tb.2)

/-- The vertical cluster bounding box `(top, bottom)`. -/
def cluster_vert (base : Glyph) (marks : List Glyph) : Int × Int :=
  marks.foldl vert_step (-base.ascent, base.descent)

/-- The horizontal running state of the mark loop in isolation. -/
structure HorizState where
  left : Int
  right : Int
  width : Int
  lbearing : Int
  rbearing : Int

/-- The horizontal recurrence of the mark loop in isolation. -/
def horiz_step (hs : HorizState) (g : Glyph) : HorizState :=
  let code := resolved_code g
  let size := g.rface.font_size
  let off_x := Int.tdiv (size * ((COMBINING_CODE_OFF_X code : Int) - 128)) 1000
  let base_x := (COMBINING_CODE_BASE_X code : Int)
  let add_x := (COMBINING_CODE_ADD_X code : Int)
  let xoff := hs.left + Int.tdiv (hs.width * base_x - g.width * add_x) 2 + off_x
  let left1 := if xoff < hs.left then xoff else hs.left
  let right1 := if xoff + g.width > hs.right then xoff + g.width else hs.right
  { left := left1, right := right1, width := right1 - left1,
    lbearing := if xoff + g.lbearing < left1 + hs.lbearing
      then xoff + g.lbearing - left1 else hs.lbearing,
    rbearing := if xoff + g.rbearing > left1 + hs.rbearing
      then xoff + g.rbearing - left1 else hs.rbearing }

/-- The horizontal cluster bounding data. -/
def cluster_horiz (base : Glyph) (marks : List Glyph) : HorizState :=
  marks.foldl horiz_step
    { left := -base.width, right := 0, width := base.width,
      lbearing := if base.lbearing < 0 then base.lbearing else 0,
      rbearing := base.rbearing }

/-- The leftward shift applied when the cluster extends left of the base
origin. -/
def cluster_shift (base : Glyph) (marks : List Glyph) : Int :=
  if (cluster_horiz base marks).left < -base.width
  then -base.width - (cluster_horiz base marks).left else 0

/-- The rightward widening applied when the cluster overhangs the base
advance. -/
def cluster_right_pad (base : Glyph) (marks : List Glyph) : Int :=
  if 0 < (cluster_horiz base marks).right then (cluster_horiz base marks).right
  else 0

theorem layout_mark_range (st : ClusterState) (g : Glyph) :
    ((layout_mark st g).begin_, (layout_mark st g).end_)
      = range_step (st.begin_, st.end_) g := by
  simp only [layout_mark, range_step]

theorem layout_mark_vert (st : ClusterState) (g : Glyph)
    (hinv : st.height = st.bottom - st.top) :
    ((layout_mark st g).top, (layout_mark st g).bottom)
      = vert_step (st.top, st.bottom) g
    ∧ (layout_mark st g).height
      = (layout_mark st g).bottom - (layout_mark st g).top := by
  constructor
  · simp only [layout_mark, vert_step, hinv]
  · simp only [layout_mark]

theorem layout_mark_horiz (st : ClusterState) (g : Glyph) :
    HorizState.mk (layout_mark st g).left (layout_mark st g).right
        (layout_mark st g).width (layout_mark st g).lbearing
        (layout_mark st g).rbearing
      = horiz_step
          (HorizState.mk st.left st.right st.width st.lbearing st.rbearing) g := by
  simp only [layout_mark, horiz_step]

theorem foldl_layout_mark_range :
    ∀ (ms : List Glyph) (st : ClusterState),
      ((ms.foldl layout_mark st).begin_, (ms.foldl layout_mark st).end_)
        = ms.foldl range_step (st.begin_, st.end_) := by
  intro ms
  induction ms with
  | nil => intro st; rfl
  | cons g rest ih =>
    intro st
    simp only [List.foldl_cons]
    rw [ih (layout_mark st g), layout_mark_range]

theorem foldl_layout_mark_vert :
    ∀ (ms : List Glyph) (st : ClusterState),
      st.height = st.bottom - st.top →
      ((ms.foldl layout_mark st).top, (ms.foldl layout_mark st).bottom)
        = ms.foldl vert_step (st.top, st.bottom) := by
  intro ms
  induction ms with
  | nil => intro st _; rfl
  | cons g rest ih =>
    intro st hinv
    obtain ⟨hstep, hinv2⟩ := layout_mark_vert st g hinv
    simp only [List.foldl_cons]
    rw [ih (layout_mark st g) hinv2, hstep]

theorem foldl_layout_mark_horiz :
    ∀ (ms : List Glyph) (st : ClusterState),
      HorizState.mk (ms.foldl layout_mark st).left
          (ms.foldl layout_mark st).right (ms.foldl layout_mark st).width
          (ms.foldl layout_mark st).lbearing (ms.foldl layout_mark st).rbearing
        = ms.foldl horiz_step
            (HorizState.mk st.left st.right st.width st.lbearing st.rbearing) := by
  intro ms
  induction ms with
  | nil => intro st; rfl
  | cons g rest ih =>
    intro st
    simp only [List.foldl_cons]
    rw [ih (layout_mark st g), layout_mark_horiz]

theorem foldl_layout_mark_marks_width :
    ∀ (ms : List Glyph) (st : ClusterState),
      (∀ m ∈ st.marks, m.width = 0) →
      ∀ m ∈ (ms.foldl layout_mark st).marks, m.width = 0 := by
  intro ms
  induction ms with
  | nil => intro st h; exact h
  | cons g rest ih =>
    intro st h
    refine ih (layout_mark st g) ?_
    intro m hm
    simp only [layout_mark, List.mem_append, List.mem_singleton] at hm
    rcases hm with hm | hm
    · exact h m hm
    · rw [hm]

/-- C7. After the combining branch of `layout_glyphs` runs on a cluster
(base glyph plus following combining glyphs): every mark has `width = 0`;
every member — marks and base alike — carries the cluster's expanded
character range as its `pos`/`to`; and the base carries the cluster's final
metrics: `ascent = -top` and `descent = bottom` of the cluster bounding box
(`cluster_vert`), and the box `lbearing`/`rbearing`/`width` adjusted by the
left-shift and right-widening steps (`cluster_shift`, `cluster_right_pad`). -/
theorem layout_glyphs_cluster_spec (base : Glyph) (marks : List Glyph) :
    (∀ m ∈ (layout_glyphs_cluster base marks).2, m.width = 0)
    ∧ (∀ m ∈ (layout_glyphs_cluster base marks).2,
        m.pos = (layout_glyphs_cluster base marks).1.pos
        ∧ m.to_ = (layout_glyphs_cluster base marks).1.to_)
    ∧ (layout_glyphs_cluster base marks).1.pos = (cluster_range base marks).1
    ∧ (layout_glyphs_cluster base marks).1.to_ = (cluster_range base marks).2
    ∧ (layout_glyphs_cluster base marks).1.ascent = -(cluster_vert base marks).1
    ∧ (layout_glyphs_cluster base marks).1.descent = (cluster_vert base marks).2
    ∧ (layout_glyphs_cluster base marks).1.lbearing
        = (cluster_horiz base marks).lbearing + cluster_shift base marks
    ∧ (layout_glyphs_cluster base marks).1.rbearing
        = (cluster_horiz base marks).rbearing + cluster_shift base marks
          + cluster_right_pad base marks
    ∧ (layout_glyphs_cluster base marks).1.width
        = base.width + cluster_shift base marks + cluster_right_pad base marks := by
  have hrange : ((marks.foldl layout_mark (init_cluster_state base)).begin_,
      (marks.foldl layout_mark (init_cluster_state base)).end_)
      = cluster_range base marks :=
    foldl_layout_mark_range marks (init_cluster_state base)
  have hvert : ((marks.foldl layout_mark (init_cluster_state base)).top,
      (marks.foldl layout_mark (init_cluster_state base)).bottom)
      = cluster_vert base marks :=
    foldl_layout_mark_vert marks (init_cluster_state base) rfl
  have hhoriz : HorizState.mk
      (marks.foldl layout_mark (init_cluster_state base)).left
      (marks.foldl layout_mark (init_cluster_state base)).right
      (marks.foldl layout_mark (init_cluster_state base)).width
      (marks.foldl layout_mark (init_cluster_state base)).lbearing
      (marks.foldl layout_mark (init_cluster_state base)).rbearing
      = cluster_horiz base marks :=
    foldl_layout_mark_horiz marks (init_cluster_state base)
  have hmw : ∀ m ∈ (marks.foldl layout_mark (init_cluster_state base)).marks,
      m.width = 0 := by
    refine foldl_layout_mark_marks_width marks (init_cluster_state base) ?_
    intro m hm
    simp [init_cluster_state] at hm
  set st := marks.foldl layout_mark (init_cluster_state base) with hstdef
  have hbeg : st.begin_ = (cluster_range base marks).1 := by rw [← hrange]
  have hend : st.end_ = (cluster_range base marks).2 := by rw [← hrange]
  have htop : st.top = (cluster_vert base marks).1 := by rw [← hvert]
  have hbot : st.bottom = (cluster_vert base marks).2 := by rw [← hvert]
  have hleft : st.left = (cluster_horiz base marks).left := by rw [← hhoriz]
  have hright : st.right = (cluster_horiz base marks).right := by rw [← hhoriz]
  have hlb : st.lbearing = (cluster_horiz base marks).lbearing := by rw [← hhoriz]
  have hrb : st.rbearing = (cluster_horiz base marks).rbearing := by rw [← hhoriz]
  have hs : cluster_shift base marks
      = if st.left < -base.width then -base.width - st.left else 0 := by
    rw [cluster_shift, ← hleft]
  have hr : cluster_right_pad base marks
      = if 0 < st.right then st.right else 0 := by
    rw [cluster_right_pad, ← hright]
  refine ⟨?_, ?_, ?_, ?_, ?_, ?_, ?_, ?_, ?_⟩
  · intro m hm
    simp only [layout_glyphs_cluster, ← hstdef, List.mem_map] at hm
    obtain ⟨m0, hm0, hrfl⟩ := hm
    rw [← hrfl]
    by_cases hc : 0 < st.right
    · rw [if_pos hc] at hm0
      rcases List.mem_map.mp hm0 with ⟨m1, hm1, hrfl1⟩
      rw [← hrfl1]
      exact hmw m1 hm1
    · rw [if_neg hc] at hm0
      exact hmw m0 hm0
  · intro m hm
    simp only [layout_glyphs_cluster, ← hstdef, List.mem_map] at hm ⊢
    obtain ⟨m0, _, hrfl⟩ := hm
    rw [← hrfl]
    exact ⟨rfl, rfl⟩
  · simp only [layout_glyphs_cluster, ← hstdef]
    exact hbeg
  · simp only [layout_glyphs_cluster, ← hstdef]
    exact hend
  · simp only [layout_glyphs_cluster, ← hstdef]
    split_ifs <;> simp [htop]
  · simp only [layout_glyphs_cluster, ← hstdef]
    split_ifs <;> simp [hbot]
  · simp only [layout_glyphs_cluster, ← hstdef]
    rw [hs, ← hlb]
    split_ifs <;> ring
  · simp only [layout_glyphs_cluster, ← hstdef]
    rw [hs, hr, ← hrb]
    split_ifs <;> ring
  · simp only [layout_glyphs_cluster, ← hstdef]
    rw [hs, hr]
    split_ifs <;> ring

/-- Closed witness for C6 at a concrete RTL cluster: modulo the level tag
the reordered buffer is a permutation of the input. -/
theorem visual_order_cluster_structure_witness :
    ((visual_order bcAllR bidiOnControl [charGlyph 0x5D0 0 12]).map eraseLevel).Perm
      (([charGlyph 0x5D0 0 12] : List Glyph).map eraseLevel) := by
  obtain ⟨cs', _, _, h3⟩ :=
    visual_order_cluster_structure bcAllR bidiOnControl [charGlyph 0x5D0 0 12]
  exact h3

/-- Closed witness for C7 on a concrete cluster (base `A`, one class-230
mark): the base glyph's ascent is the negated cluster top and the mark ends
up zero-width with the shared range. -/
theorem layout_glyphs_cluster_spec_witness :
    (layout_glyphs_cluster (charGlyph 65 0 10) [markOfClass 230]).1.ascent
      = -(cluster_vert (charGlyph 65 0 10) [markOfClass 230]).1
    ∧ (layout_glyphs_cluster (charGlyph 65 0 10) [markOfClass 230]).1.pos
      = (cluster_range (charGlyph 65 0 10) [markOfClass 230]).1 :=
  And.intro
    (layout_glyphs_cluster_spec (charGlyph 65 0 10) [markOfClass 230]).2.2.2.2.1
    (layout_glyphs_cluster_spec (charGlyph 65 0 10) [markOfClass 230]).2.2.1
